import Mathlib

/-!
Verification of the process-manager core in `src/main.py`
(`cleaning-process-macos`).

The program is a Tkinter GUI that periodically samples OS processes,
shows them in a `ttk.Treeview` sorted by resident memory (descending),
and lets the operator send SIGTERM to non-essential processes.

We embed the display-relevant core shallowly:

* the Treeview is a `TreeState`: an ordered list of rows (each row an
  item handle `itemId` plus the stored cell values), the current
  selection (`selectmode="browse"`: at most one item) and the fresh
  item-handle counter;
* every display-surface call the Python code makes (insert, update,
  move, delete, selection_set, plus the scroll calls `yview_moveto` /
  `see` which the code never makes, the `os.kill` signal call and the
  message boxes) is recorded in a trace of `Op` values, so that claims
  about "issues / never issues an operation" are statements about the
  trace;
* the OS is an oracle: `psutil.process_iter` becomes an input list of
  per-process read results, `os.kill` becomes a function
  `Nat → KillResult`.

Machine integers do not overflow anywhere relevant (pids and byte
counts are small), so they are modelled as `Nat`.  The memory column is
kept as the raw `rss` byte count: the Python code sorts by
`rss / (1024*1024)` computed in double precision, and division by the
constant `2^20` is exact and strictly monotone on the integers
produced by the OS, so sorting by `rss` is the same order.  The
rendered string `f"{rss_mb:.1f}"` is display formatting, out of scope
per the spec.
-/

/-- `ESSENTIAL_NAMES` from `src/main.py` (lines 11-27): the fixed
protected-name set.  (A Python `set`; only membership is ever used, so
a list with `contains` is an equivalent model.) -/
def ESSENTIAL_NAMES : List String :=
  ["kernel_task", "launchd", "WindowServer", "hidd", "distnoted",
   "powerd", "loginwindow", "systemstats", "notifyd", "syslogd",
   "mdworker", "mds", "mds_stores", "bluetoothd", "configd"]

/-- `ESSENTIAL_PIDS = {0, 1}` from `src/main.py` (line 29). -/
def ESSENTIAL_PIDS : List Nat := [0, 1]

/-- `ProcessManagerApp._is_essential` (lines 211-213):
`pid in ESSENTIAL_PIDS or name in ESSENTIAL_NAMES`. -/
def is_essential (pid : Nat) (name : String) : Bool :=
  ESSENTIAL_PIDS.contains pid || ESSENTIAL_NAMES.contains name

/-- One gathered process tuple `(pid, name, rss_mb, is_essential)` as
built by the loop at lines 170-180 (`mem` is the sort key, see the
header comment on units). -/
structure ProcInfo where
  pid : Nat
  name : String
  mem : Nat
  ess : Bool
deriving DecidableEq, Repr

/-- One Treeview row: the item handle returned by `tree.insert` plus
the stored cell values and the colour tag (`true` = "essential"). -/
structure Row where
  itemId : Nat
  pid : Nat
  name : String
  mem : Nat
  tag : Bool
deriving DecidableEq, Repr

/-- The row a process tuple is rendered to, given an item handle:
`values=(pid, name, mem)` and `tags=(tag,)` as at lines 194/197. -/
def rowOf (p : ProcInfo) (itemId : Nat) : Row :=
  ⟨itemId, p.pid, p.name, p.mem, p.ess⟩

/-- The modelled Treeview: children of the root in display order, the
`browse`-mode selection (an item handle or none), and the counter from
which fresh item handles are drawn. -/
structure TreeState where
  rows : List Row
  selection : Option Nat
  nextId : Nat
deriving DecidableEq, Repr

/-- One display-surface / OS call, as recorded in an operation trace.
`move` records the item's index before the move and the requested
target index.  `yviewMoveto` and `see` are the scroll-restore and
scroll-into-view calls of the Treeview API; `src/main.py` never issues
them.  `kill` is `os.kill(pid, SIGTERM)`; the box constructors are the
`messagebox` calls. -/
inductive Op where
  | insert (index : Nat) (itemId : Nat) (pid : Nat)
  | update (itemId : Nat)
  | move (itemId : Nat) (fromIdx : Nat) (toIdx : Nat)
  | delete (itemId : Nat)
  | selectionSet (itemId : Nat)
  | yviewMoveto (milli : Nat)
  | see (itemId : Nat)
  | kill (pid : Nat)
  | infoBox
  | warnBox
  | errorBox
deriving DecidableEq, Repr

/-- Result of the `os.kill` call as seen through the `try/except` at
lines 241-253: success, `PermissionError`, or `ProcessLookupError`. -/
inductive KillResult where
  | ok
  | permissionError
  | processLookupError
deriving DecidableEq, Repr

/-! ## Sampler (lines 170-180) -/

/-- The two per-process exceptions caught at line 179. -/
inductive PErr where
  | noSuchProcess
  | accessDenied
deriving DecidableEq, Repr

/-- One raw `proc.info` record: `name` and `memory_info` may be
unavailable (`None`). -/
structure RawProc where
  pid : Nat
  name : Option String
  memInfo : Option Nat
deriving DecidableEq, Repr

/-- `proc.info["name"] or "?"` (line 174): Python `or` replaces both
`None` and the empty string by `"?"`. -/
def nameOrQ : Option String → String
  | none => "?"
  | some s => if s = "" then "?" else s

/-- Lines 173-178: build the tuple for one successfully read process
(`rss` if `mem_info` else `0`, essential flag recomputed from the
current pid/name pair). -/
def readProc (r : RawProc) : ProcInfo :=
  let name := nameOrQ r.name
  { pid := r.pid, name := name, mem := r.memInfo.getD 0,
    ess := is_essential r.pid name }

/-- The gathering loop of `_populate_tree` (lines 170-180): each
enumerated process either yields a record or raises one of the two
caught exceptions, in which case `continue` skips it. -/
def gatherProcesses : List (Except PErr RawProc) → List ProcInfo
  | [] => []
  | Except.error _ :: rest => gatherProcesses rest
  | Except.ok r :: rest => readProc r :: gatherProcesses rest

/-! ## Sorting (line 183)

`processes_data.sort(key=lambda x: x[2], reverse=True)` is Python's
stable sort by memory, descending: ties keep their enumeration order.
We model it as a stable insertion sort. -/

/-- Insert `x` in front of the first element whose key is not strictly
greater: elements equal to `x` that are already present came later in
the original list, so `x` goes before them (stability). -/
def insertDesc (x : ProcInfo) : List ProcInfo → List ProcInfo
  | [] => [x]
  | y :: ys => if x.mem < y.mem then y :: insertDesc x ys else x :: y :: ys

/-- Stable sort by `mem`, descending (line 183). -/
def sortDesc : List ProcInfo → List ProcInfo
  | [] => []
  | x :: xs => insertDesc x (sortDesc xs)

/-! ## Treeview primitives

These model the `ttk.Treeview` calls the code makes.  Item handles are
unique by construction (fresh counter), pids are unique by the
display invariant; the association lists below are looked up by first
match, which under those uniqueness invariants coincides with the
Python `dict` used in the source. -/

/-- Lookup in an association list (pid ↦ item handle). -/
def alistLookup (d : List (Nat × Nat)) (k : Nat) : Option Nat :=
  (d.find? (fun e => e.1 = k)).map (fun e => e.2)

/-- `tree.insert("", index, ...)`: insert at `index`, clamped to the
end (Tk clamps an out-of-range index). -/
def insertAt (rows : List Row) (i : Nat) (r : Row) : List Row :=
  rows.take i ++ r :: rows.drop i

/-- Index of an item among the root's children. -/
def idxOfId (rows : List Row) (itemId : Nat) : Nat :=
  rows.findIdx (fun r => r.itemId = itemId)

/-- `tree.move(item, "", i)`: detach the item and re-insert it at
position `i` among the remaining children (Tk semantics); a handle
that does not exist moves nothing. -/
def moveTo (rows : List Row) (itemId : Nat) (i : Nat) : List Row :=
  match rows.find? (fun r => r.itemId = itemId) with
  | none => rows
  | some r => insertAt (rows.eraseP (fun s => s.itemId = itemId)) i r

/-- `tree.item(item, values=..., tags=...)`: update the stored cells
and tag of one item in place (line 194). -/
def updValues (p : ProcInfo) (itemId : Nat) (rows : List Row) : List Row :=
  rows.map (fun r =>
    if r.itemId = itemId then
      { r with pid := p.pid, name := p.name, mem := p.mem, tag := p.ess }
    else r)

/-- Mutable state threaded through the reconciliation loop of
lines 189-200: the current children, the `new_items` dict, the fresh
handle counter and the calls made so far. -/
structure LoopState where
  tree : List Row
  newItems : List (Nat × Nat)
  nextId : Nat
  trace : List Op
deriving Repr

/-- One iteration of `for index, (pid, name, rss_mb, is_essential) in
enumerate(processes_data)` (lines 189-200): update in place if the pid
already has an item, otherwise insert at `index`; then unconditionally
`tree.move(item_id, "", index)`; record the item in `new_items`. -/
def loopStep (existing : List (Nat × Nat)) (i : Nat) (p : ProcInfo)
    (ls : LoopState) : LoopState :=
  match alistLookup existing p.pid with
  | some itemId =>
    let t1 := updValues p itemId ls.tree
    let oldIdx := idxOfId t1 itemId
    { tree := moveTo t1 itemId i
      newItems := ls.newItems ++ [(p.pid, itemId)]
      nextId := ls.nextId
      trace := ls.trace ++ [Op.update itemId, Op.move itemId oldIdx i] }
  | none =>
    let itemId := ls.nextId
    let t1 := insertAt ls.tree i (rowOf p itemId)
    let oldIdx := idxOfId t1 itemId
    { tree := moveTo t1 itemId i
      newItems := ls.newItems ++ [(p.pid, itemId)]
      nextId := ls.nextId + 1
      trace := ls.trace ++ [Op.insert i itemId p.pid, Op.move itemId oldIdx i] }

/-- The whole loop of lines 189-200, indices starting at `i`. -/
def reconLoop (existing : List (Nat × Nat)) : Nat → List ProcInfo →
    LoopState → LoopState
  | _, [], ls => ls
  | i, p :: rest, ls => reconLoop existing (i + 1) rest (loopStep existing i p ls)

/-- The stale-row sweep of lines 202-205: for each `(pid, item)` of the
pre-loop `existing` dict, delete the item if its pid was not seen this
cycle.  Tk removes a deleted item from the selection, which is how the
selection ends up cleared when the selected process disappears. -/
def deleteStale (newKeys : List Nat) :
    List (Nat × Nat) → List Row × Option Nat × List Op →
    List Row × Option Nat × List Op
  | [], acc => acc
  | (p, itemId) :: rest, (rows, sel, tr) =>
    if newKeys.contains p then
      deleteStale newKeys rest (rows, sel, tr)
    else
      deleteStale newKeys rest
        (rows.eraseP (fun r => r.itemId = itemId),
         if sel = some itemId then none else sel,
         tr ++ [Op.delete itemId])

/-- The `existing` dict of line 186: displayed pid ↦ item handle, in
display order. -/
def existingOf (rows : List Row) : List (Nat × Nat) :=
  rows.map (fun r => (r.pid, r.itemId))

/-- Lines 142-148: read the pid stored in the currently selected row,
if any.  (The stored cell is the row's own pid, so the `int(...)`
parse never fails in the model.) -/
def selectedPid (st : TreeState) : Option Nat :=
  st.selection.bind (fun sel =>
    (st.rows.find? (fun r => r.itemId = sel)).map (fun r => r.pid))

/-- Lines 207-209 (`if selected_pid in new_items:
self.tree.selection_set(new_items[selected_pid])`): re-mark the
remembered pid's item as selected when it was seen this cycle;
otherwise the selection is left as the deletions left it. -/
def restoreSelection (selPid : Option Nat) (newItems : List (Nat × Nat))
    (rows : List Row) (sel1 : Option Nat) (nid : Nat) (tr : List Op) :
    TreeState × List Op :=
  match selPid with
  | some p =>
    match alistLookup newItems p with
    | some itemId => (⟨rows, some itemId, nid⟩, tr ++ [Op.selectionSet itemId])
    | none => (⟨rows, sel1, nid⟩, tr)
  | none => (⟨rows, sel1, nid⟩, tr)

/-- `ProcessManagerApp._populate_tree` (lines 139-209), display part.

The function takes the already-gathered sample (the loop of
lines 170-180 is `gatherProcesses`); the RAM-summary labels
(lines 153-166) are window dressing outside the reconciliation core
and carry no display-list state.  Note that line 151 stores the scroll
fraction in `scroll_pos`, but no later line reads it: the function
issues no `yview_moveto` and no `see` call, which is visible in the
returned trace.

Steps, in source order: capture `selected_pid`; sort the sample by
memory descending; build `existing` (pid ↦ item) from the current
children; run the update/insert/move loop; delete stale items; restore
the selection if the remembered pid was seen this cycle. -/
def populate_tree (st : TreeState) (sample : List ProcInfo) :
    TreeState × List Op :=
  let selPid := selectedPid st
  let sorted := sortDesc sample
  let existing := existingOf st.rows
  let ls := reconLoop existing 0 sorted ⟨st.rows, [], st.nextId, []⟩
  let res := deleteStale (ls.newItems.map Prod.fst) existing
    (ls.tree, st.selection, ls.trace)
  restoreSelection selPid ls.newItems res.1 res.2.1 ls.nextId res.2.2

/-! ## Terminate / clean actions (lines 216-253) -/

/-- `ProcessManagerApp._send_sigterm` (lines 241-253): issue the
`os.kill` call unconditionally, return `True` on success; show an
error box on `PermissionError`; silently `pass` on
`ProcessLookupError`; return `False` on either exception.  `os` is the
OS oracle deciding the outcome of the signal call. -/
def send_sigterm (os : Nat → KillResult) (pid : Nat) (_name : String) :
    Bool × List Op :=
  match os pid with
  | KillResult.ok => (true, [Op.kill pid])
  | KillResult.permissionError => (false, [Op.kill pid, Op.errorBox])
  | KillResult.processLookupError => (false, [Op.kill pid])

/-- `ProcessManagerApp._terminate_selected` (lines 216-229): info box
when nothing is selected; warning box (and no signal) when the
selected row is essential; otherwise `_send_sigterm`. -/
def terminate_selected (os : Nat → KillResult) (st : TreeState) : List Op :=
  match st.selection.bind (fun sel => st.rows.find? (fun r => r.itemId = sel)) with
  | none => [Op.infoBox]
  | some r =>
    if is_essential r.pid r.name then [Op.warnBox]
    else (send_sigterm os r.pid r.name).2

/-- Loop body of `_clean_nonessential` (lines 233-238): skip an
essential row; otherwise `_send_sigterm` it and bump the count when it
returns `True`. -/
def cleanStep (os : Nat → KillResult) (acc : Nat × List Op) (r : Row) :
    Nat × List Op :=
  if is_essential r.pid r.name then acc
  else
    let s := send_sigterm os r.pid r.name
    (acc.1 + (if s.1 then 1 else 0), acc.2 ++ s.2)

/-- `ProcessManagerApp._clean_nonessential` (lines 231-239): walk the
currently displayed rows in order, `_send_sigterm` each non-essential
one, count the `True` returns, and show the summary box. -/
def clean_nonessential (os : Nat → KillResult) (st : TreeState) :
    Nat × List Op :=
  let folded := st.rows.foldl (cleanStep os) (0, [])
  (folded.1, folded.2 ++ [Op.infoBox])

/-! ## Trace measures -/

/-- All pids targeted by `os.kill` calls in a trace, in order. -/
def kills (tr : List Op) : List Nat :=
  tr.filterMap (fun op => match op with | Op.kill p => some p | _ => none)

/-- Number of `tree.insert` calls in a trace. -/
def insertsCount (tr : List Op) : Nat :=
  tr.countP (fun op => match op with | Op.insert _ _ _ => true | _ => false)

/-- Number of `tree.delete` calls in a trace. -/
def deletesCount (tr : List Op) : Nat :=
  tr.countP (fun op => match op with | Op.delete _ => true | _ => false)

/-- Number of `tree.move` calls in a trace. -/
def movesCount (tr : List Op) : Nat :=
  tr.countP (fun op => match op with | Op.move _ _ _ => true | _ => false)

/-- Operations the update/insert/move loop may emit. -/
def isLoopOp : Op → Bool
  | Op.insert _ _ _ => true
  | Op.update _ => true
  | Op.move _ _ _ => true
  | _ => false

/-- The two scroll calls of the Treeview API. -/
def isScrollOp : Op → Bool
  | Op.yviewMoveto _ => true
  | Op.see _ => true
  | _ => false

/-! ## Display well-formedness

Invariants the Treeview maintains by construction: at most one row per
pid, item handles unique and below the fresh counter, and the
selection (if any) is an existing item. -/

/-- The selection, if present, names a displayed item. -/
def selOk (st : TreeState) : Bool :=
  match st.selection with
  | none => true
  | some s => st.rows.any (fun r => r.itemId = s)

/-- Display-state well-formedness. -/
def WF (st : TreeState) : Prop :=
  (st.rows.map Row.pid).Nodup ∧
  (st.rows.map Row.itemId).Nodup ∧
  (∀ r ∈ st.rows, r.itemId < st.nextId) ∧
  selOk st = true

instance (st : TreeState) : Decidable (WF st) := by
  unfold WF; infer_instance

/-- The item handle currently displaying pid `p`, if any. -/
def rowIdOfPid (st : TreeState) (p : Nat) : Option Nat :=
  (st.rows.find? (fun r => r.pid = p)).map (fun r => r.itemId)

/-! ## Refresh-loop timing model (lines 134-137, 256-258)

`_refresh_loop` runs `while not self.stop_refresh.is_set():
time.sleep(REFRESH_INTERVAL); self._populate_tree()` on a daemon
thread; `on_closing` sets `stop_refresh` and destroys the window.  We
discretise one execution on a global clock: iteration `i` of the loop
checks the event at instant `3*i`, sleeps during instant `3*i + 1`,
and runs `_populate_tree` at instant `3*i + 2`.  The teardown is a
parameter `t`: `stop_refresh.set()` has happened before instant `t`
(so a check at instant `c` reads the event as set exactly when
`t ≤ c`).  The loop exits at its first check that reads the event as
set. -/

/-- Check `i` (instant `3*i`) observes the stop event. -/
def checkObservesStop (t i : Nat) : Bool := t ≤ 3 * i

/-- Display update `i` (instant `3*i + 2`) fires: every check up to and
including check `i` read the event as unset, i.e. `t > 3*i`. -/
def populateFires (t i : Nat) : Bool := 3 * i < t

/-- Display update `i` fires although the stop event was already set
when it ran: the event was set during iteration `i`'s sleep or between
the sleep and the update. -/
def populateAfterStopSet (t i : Nat) : Bool :=
  populateFires t i && t ≤ 3 * i + 2

/-! ## Expected-state functions (verification artifacts)

The definitions below are not part of the embedded program; they are
closed forms for the states the reconciliation loop passes through,
used to state and prove its characterisation. -/

/-- The record produced for one enumerated process, or `none` when the
read raised one of the two caught exceptions. -/
def okRecord : Except PErr RawProc → Option ProcInfo
  | Except.ok r => some (readProc r)
  | Except.error _ => none

/-- Item handle displaying pid `q` in a row list, if any. -/
def origIdOf (rows : List Row) (q : Nat) : Option Nat :=
  (rows.find? (fun r => r.pid = q)).map Row.itemId

/-- The item handles the loop assigns to the sorted sample, in order:
a pid already displayed keeps its handle (`existing` lookup), a new
pid receives the next fresh handle. -/
def idAssign (E : List (Nat × Nat)) (n0 : Nat) : List ProcInfo → List Nat
  | [] => []
  | p :: rest =>
    match alistLookup E p.pid with
    | some itemId => itemId :: idAssign E n0 rest
    | none => n0 :: idAssign E (n0 + 1) rest

/-- How many of the given records have a pid not yet displayed. -/
def countNew (E : List (Nat × Nat)) (l : List ProcInfo) : Nat :=
  l.countP (fun p => (alistLookup E p.pid).isNone)

/-- The handle the loop assigns to the record following prefix `done`. -/
def assignedId (E : List (Nat × Nat)) (n0 : Nat) (done : List ProcInfo)
    (p : ProcInfo) : Nat :=
  match alistLookup E p.pid with
  | some itemId => itemId
  | none => n0 + countNew E done

/-- Expected children after the loop has processed the prefix `done`:
the processed rows in target order, then the untouched remaining
original rows. -/
def treeExp (E : List (Nat × Nat)) (orig : List Row) (n0 : Nat)
    (done : List ProcInfo) : List Row :=
  List.zipWith rowOf done (idAssign E n0 done) ++
    orig.filter (fun r => !(decide (r.pid ∈ done.map ProcInfo.pid)))

/-- Expected `new_items` after processing the prefix `done`. -/
def niExp (E : List (Nat × Nat)) (n0 : Nat) (done : List ProcInfo) :
    List (Nat × Nat) :=
  (done.map ProcInfo.pid).zip (idAssign E n0 done)

/-- Expected fresh-handle counter after processing the prefix `done`. -/
def nidExp (E : List (Nat × Nat)) (n0 : Nat) (done : List ProcInfo) : Nat :=
  n0 + countNew E done

/-- The trace of a reconcile pass over an already-up-to-date display:
for each row, an in-place update and a move to the index it already
occupies. -/
def noopTrace : Nat → List Nat → List Op
  | _, [] => []
  | k, itemId :: rest =>
    Op.update itemId :: Op.move itemId k k :: noopTrace (k + 1) rest
/-! # Lemmas and theorems -/

/-! ## Sampler -/

theorem gather_eq_filterMap (l : List (Except PErr RawProc)) :
    gatherProcesses l = l.filterMap okRecord := by
  induction l with
  | nil => rfl
  | cons x rest ih =>
    cases x <;> simp [gatherProcesses, okRecord, List.filterMap_cons, ih]

/-- C7: a per-process failure during enumeration (process vanished or
access denied) is skipped and enumeration continues; the sample never
fails as a whole (`gatherProcesses` is total) and contains exactly the
successfully read processes, in order. -/
theorem C7_sampler_skips_failures (xs ys : List (Except PErr RawProc)) (e : PErr) :
    gatherProcesses (xs ++ Except.error e :: ys) = gatherProcesses (xs ++ ys) ∧
    gatherProcesses xs = xs.filterMap okRecord := by
  refine ⟨?_, gather_eq_filterMap xs⟩
  simp [gather_eq_filterMap, okRecord]

/-! ## Signal sending -/

/-- C10: `_send_sigterm` contains no essential-process check: its very
first operation is the `os.kill` call, for every pid and name — in
particular for the protected pair `(0, "kernel_task")`, which
`is_essential` classifies as essential. -/
theorem C10_send_sigterm_has_no_essential_check
    (os : Nat → KillResult) (p : Nat) (n : String) :
    (send_sigterm os p n).2.head? = some (Op.kill p) ∧
    (send_sigterm os 0 "kernel_task").2.head? = some (Op.kill 0) ∧
    is_essential 0 "kernel_task" = true := by
  refine ⟨?_, ?_, by decide⟩
  · cases h : os p <;> simp [send_sigterm, h]
  · cases h : os 0 <;> simp [send_sigterm, h]

/-- C8: terminating an already-exited process returns `False` (not
counted as a `Sent` success), performs exactly the signal call with no
message box of any kind, and an error box can arise from
`_send_sigterm` only on a permission failure. -/
theorem C8_vanished_process_is_silent
    (os : Nat → KillResult) (p : Nat) (n : String)
    (hgone : os p = KillResult.processLookupError) :
    (send_sigterm os p n).1 = false ∧
    (send_sigterm os p n).2 = [Op.kill p] ∧
    (∀ os2 : Nat → KillResult,
      Op.errorBox ∈ (send_sigterm os2 p n).2 → os2 p = KillResult.permissionError) := by
  refine ⟨by simp [send_sigterm, hgone], by simp [send_sigterm, hgone], ?_⟩
  intro os2 hmem
  cases h : os2 p <;> simp [send_sigterm, h] at hmem ⊢

theorem C8_witness :
    (send_sigterm (fun _ => KillResult.processLookupError) 42 "python").1 = false ∧
    (send_sigterm (fun _ => KillResult.processLookupError) 42 "python").2 = [Op.kill 42] ∧
    (∀ os2 : Nat → KillResult,
      Op.errorBox ∈ (send_sigterm os2 42 "python").2 →
        os2 42 = KillResult.permissionError) :=
  C8_vanished_process_is_silent (fun _ => KillResult.processLookupError) 42 "python" rfl

/-! ## Refresh-loop teardown -/

/-- C9 as stated is false: if the stop event is set during iteration
0's sleep (`t = 1`), the display update of iteration 0 still fires
(at instant 2, after the event is set), although no check has yet
observed the event. -/
theorem C9_counterexample :
    populateAfterStopSet 1 0 = true ∧ checkObservesStop 1 0 = false := by decide

/-- C9 amended: no display update fires at or after the first check
that observes the stop event; and at most one update can fire after
the event is set (the one whose iteration the set landed in). -/
theorem C9_no_update_after_stop_observed (t i j : Nat)
    (hobs : checkObservesStop t j = true) (hij : j ≤ i) :
    populateFires t i = false ∧
    (∀ k k', populateAfterStopSet t k = true →
      populateAfterStopSet t k' = true → k = k') := by
  refine ⟨?_, ?_⟩
  · have h1 : t ≤ 3 * j := by simpa [checkObservesStop] using hobs
    simp only [populateFires, decide_eq_false_iff_not]
    omega
  · intro k k' hk hk'
    have h1 : 3 * k < t ∧ t ≤ 3 * k + 2 := by
      simpa [populateAfterStopSet, populateFires] using hk
    have h2 : 3 * k' < t ∧ t ≤ 3 * k' + 2 := by
      simpa [populateAfterStopSet, populateFires] using hk'
    omega

theorem C9_witness :
    populateFires 0 5 = false ∧
    (∀ k k', populateAfterStopSet 0 k = true →
      populateAfterStopSet 0 k' = true → k = k') :=
  C9_no_update_after_stop_observed 0 5 0 (by decide) (by decide)

/-! ## Terminate / clean -/

theorem kills_append (a b : List Op) : kills (a ++ b) = kills a ++ kills b :=
  List.filterMap_append a b _

theorem kills_send (os : Nat → KillResult) (p : Nat) (n : String) :
    kills (send_sigterm os p n).2 = [p] := by
  cases h : os p <;> simp [send_sigterm, h, kills]

theorem mem_kills_of_kill_mem {tr : List Op} {p : Nat}
    (h : Op.kill p ∈ tr) : p ∈ kills tr := by
  simp only [kills, List.mem_filterMap]
  exact ⟨Op.kill p, h, rfl⟩

theorem kill_mem_send {os : Nat → KillResult} {q p : Nat} {n : String}
    (h : Op.kill p ∈ (send_sigterm os q n).2) : p = q := by
  cases hos : os q <;> simp [send_sigterm, hos] at h <;> exact h

theorem clean_go (os : Nat → KillResult) (rows : List Row) (acc : Nat × List Op) :
    (rows.foldl (cleanStep os) acc).1
      = acc.1 + (rows.filter (fun r =>
          !(is_essential r.pid r.name) && decide (os r.pid = KillResult.ok))).length ∧
    kills ((rows.foldl (cleanStep os) acc).2)
      = kills acc.2 ++
        (rows.filter (fun r => !(is_essential r.pid r.name))).map Row.pid := by
  induction rows generalizing acc with
  | nil => simp
  | cons r rest ih =>
    simp only [List.foldl_cons, List.filter_cons]
    by_cases hess : is_essential r.pid r.name
    · simpa [cleanStep, hess] using ih acc
    · obtain ⟨ih1, ih2⟩ := ih (cleanStep os acc r)
      cases hos : os r.pid
      · refine ⟨?_, ?_⟩
        · rw [ih1]
          simp [cleanStep, hess, send_sigterm, hos]
          omega
        · rw [ih2]
          simp [cleanStep, hess, send_sigterm, hos, kills_append, kills]
      · refine ⟨?_, ?_⟩
        · rw [ih1]
          simp [cleanStep, hess, send_sigterm, hos]
        · rw [ih2]
          simp [cleanStep, hess, send_sigterm, hos, kills_append, kills]
      · refine ⟨?_, ?_⟩
        · rw [ih1]
          simp [cleanStep, hess, send_sigterm, hos]
        · rw [ih2]
          simp [cleanStep, hess, send_sigterm, hos, kills_append, kills]

theorem clean_kills (os : Nat → KillResult) (st : TreeState) :
    kills (clean_nonessential os st).2 =
      (st.rows.filter (fun r => !(is_essential r.pid r.name))).map Row.pid ∧
    (clean_nonessential os st).1 =
      (st.rows.filter (fun r =>
        !(is_essential r.pid r.name) && decide (os r.pid = KillResult.ok))).length := by
  obtain ⟨h1, h2⟩ := clean_go os st.rows (0, [])
  refine ⟨?_, ?_⟩
  · simpa [clean_nonessential, kills_append, kills] using h2
  · simpa [clean_nonessential] using h1

theorem row_eq_of_pid_eq {rows : List Row} (hnd : (rows.map Row.pid).Nodup)
    {r r' : Row} (hr : r ∈ rows) (hr' : r' ∈ rows) (hpid : r.pid = r'.pid) :
    r = r' :=
  List.inj_on_of_nodup_map hnd hr hr' hpid

/-- C1: the essential-process check gates every signal.  If a row
displays an essential `(pid, name)` pair, neither "Terminate Selected"
nor "Clean All Non-Essential" ever issues `os.kill` to that pid; the
clean action issues its kills exactly on the displayed non-essential
rows in order, and its summary count is the number of successful
sends. -/
theorem C1_essential_protection (st : TreeState) (os : Nat → KillResult)
    (p : Nat) (n : String)
    (hnd : (st.rows.map Row.pid).Nodup)
    (hrow : ∃ r ∈ st.rows, r.pid = p ∧ r.name = n)
    (hess : is_essential p n = true) :
    Op.kill p ∉ terminate_selected os st ∧
    Op.kill p ∉ (clean_nonessential os st).2 ∧
    kills (clean_nonessential os st).2 =
      (st.rows.filter (fun r => !(is_essential r.pid r.name))).map Row.pid ∧
    (clean_nonessential os st).1 =
      (st.rows.filter (fun r =>
        !(is_essential r.pid r.name) && decide (os r.pid = KillResult.ok))).length := by
  obtain ⟨r0, hr0, hr0p, hr0n⟩ := hrow
  obtain ⟨hck, hcc⟩ := clean_kills os st
  have hr0ess : is_essential r0.pid r0.name = true := by rw [hr0p, hr0n]; exact hess
  refine ⟨?_, ?_, hck, hcc⟩
  · unfold terminate_selected
    cases hsel : st.selection.bind (fun sel => st.rows.find? (fun r => r.itemId = sel)) with
    | none => simp
    | some r =>
      by_cases h : is_essential r.pid r.name
      · simp [h]
      · simp only [h, if_false]
        intro hk
        have hpq : p = r.pid := kill_mem_send hk
        have hrmem : r ∈ st.rows := by
          cases hselval : st.selection with
          | none => rw [hselval] at hsel; simp at hsel
          | some s =>
            rw [hselval] at hsel
            simp only [Option.some_bind] at hsel
            exact List.mem_of_find?_eq_some hsel
        have hre : r = r0 := row_eq_of_pid_eq hnd hrmem hr0 (by rw [← hpq, hr0p])
        rw [hre, hr0ess] at h
        exact h rfl
  · intro hk
    have hmem := mem_kills_of_kill_mem hk
    rw [hck] at hmem
    simp only [List.mem_map, List.mem_filter] at hmem
    obtain ⟨r, ⟨hrm, hrness⟩, hrp⟩ := hmem
    have hre : r = r0 := row_eq_of_pid_eq hnd hrm hr0 (by rw [hrp, hr0p])
    rw [hre, hr0ess] at hrness
    simp at hrness

theorem C1_witness :
    Op.kill 0 ∉ terminate_selected (fun _ => KillResult.ok)
      ⟨[⟨1, 0, "kernel_task", 50, true⟩, ⟨2, 100, "Safari", 20, false⟩,
        ⟨3, 200, "Spotify", 10, false⟩], some 1, 4⟩ ∧
    Op.kill 0 ∉ (clean_nonessential (fun _ => KillResult.ok)
      ⟨[⟨1, 0, "kernel_task", 50, true⟩, ⟨2, 100, "Safari", 20, false⟩,
        ⟨3, 200, "Spotify", 10, false⟩], some 1, 4⟩).2 ∧
    kills (clean_nonessential (fun _ => KillResult.ok)
      ⟨[⟨1, 0, "kernel_task", 50, true⟩, ⟨2, 100, "Safari", 20, false⟩,
        ⟨3, 200, "Spotify", 10, false⟩], some 1, 4⟩).2 =
      (([⟨1, 0, "kernel_task", 50, true⟩, ⟨2, 100, "Safari", 20, false⟩,
        ⟨3, 200, "Spotify", 10, false⟩] : List Row).filter
          (fun r => !(is_essential r.pid r.name))).map Row.pid ∧
    (clean_nonessential (fun _ => KillResult.ok)
      ⟨[⟨1, 0, "kernel_task", 50, true⟩, ⟨2, 100, "Safari", 20, false⟩,
        ⟨3, 200, "Spotify", 10, false⟩], some 1, 4⟩).1 =
      (([⟨1, 0, "kernel_task", 50, true⟩, ⟨2, 100, "Safari", 20, false⟩,
        ⟨3, 200, "Spotify", 10, false⟩] : List Row).filter
          (fun r => !(is_essential r.pid r.name) &&
            decide ((fun _ => KillResult.ok) r.pid = KillResult.ok))).length :=
  C1_essential_protection
    ⟨[⟨1, 0, "kernel_task", 50, true⟩, ⟨2, 100, "Safari", 20, false⟩,
      ⟨3, 200, "Spotify", 10, false⟩], some 1, 4⟩
    (fun _ => KillResult.ok) 0 "kernel_task" (by decide) (by decide) (by decide)

/-! ## Sorting: permutation, sortedness, stability -/

theorem insertDesc_perm (x : ProcInfo) (l : List ProcInfo) :
    List.Perm (insertDesc x l) (x :: l) := by
  induction l with
  | nil => exact List.Perm.refl _
  | cons y ys ih =>
    simp only [insertDesc]
    by_cases h : x.mem < y.mem
    · simp only [h, if_true]
      exact (ih.cons y).trans (List.Perm.swap x y ys)
    · simp only [h, if_false]
      exact List.Perm.refl _

theorem sortDesc_perm (l : List ProcInfo) : List.Perm (sortDesc l) l := by
  induction l with
  | nil => exact List.Perm.refl _
  | cons x xs ih => exact (insertDesc_perm x (sortDesc xs)).trans (ih.cons x)

theorem sortDesc_length (l : List ProcInfo) : (sortDesc l).length = l.length :=
  (sortDesc_perm l).length_eq

theorem sortDesc_pids_nodup {l : List ProcInfo}
    (h : (l.map ProcInfo.pid).Nodup) : ((sortDesc l).map ProcInfo.pid).Nodup :=
  (((sortDesc_perm l).map ProcInfo.pid).nodup_iff).mpr h

theorem pairwise_insertDesc {x : ProcInfo} {l : List ProcInfo}
    (h : l.Pairwise (fun a b => b.mem ≤ a.mem)) :
    (insertDesc x l).Pairwise (fun a b => b.mem ≤ a.mem) := by
  induction l with
  | nil => simp [insertDesc]
  | cons y ys ih =>
    rw [List.pairwise_cons] at h
    obtain ⟨hy, hys⟩ := h
    simp only [insertDesc]
    by_cases hc : x.mem < y.mem
    · simp only [hc, if_true]
      rw [List.pairwise_cons]
      refine ⟨?_, ih hys⟩
      intro z hz
      rcases List.mem_cons.mp ((insertDesc_perm x ys).mem_iff.mp hz) with rfl | hzy
      · omega
      · exact hy z hzy
    · simp only [hc, if_false]
      rw [List.pairwise_cons]
      refine ⟨?_, List.pairwise_cons.mpr ⟨hy, hys⟩⟩
      intro z hz
      rcases List.mem_cons.mp hz with rfl | hzy
      · omega
      · have := hy z hzy
        omega

theorem sortDesc_pairwise (l : List ProcInfo) :
    (sortDesc l).Pairwise (fun a b => b.mem ≤ a.mem) := by
  induction l with
  | nil => simp [sortDesc]
  | cons x xs ih => exact pairwise_insertDesc ih

theorem filter_insertDesc (x : ProcInfo) (l : List ProcInfo) (m : Nat) :
    (insertDesc x l).filter (fun p => decide (p.mem = m)) =
      if x.mem = m then x :: l.filter (fun p => decide (p.mem = m))
      else l.filter (fun p => decide (p.mem = m)) := by
  induction l with
  | nil =>
    by_cases hxm : x.mem = m <;> simp [insertDesc, hxm]
  | cons y ys ih =>
    simp only [insertDesc]
    by_cases hc : x.mem < y.mem
    · simp only [hc, if_true, List.filter_cons]
      by_cases hym : y.mem = m
      · by_cases hxm : x.mem = m
        · exfalso
          omega
        · simp [hym, hxm, ih]
      · simp [hym, ih]
    · simp only [hc, if_false, List.filter_cons]
      by_cases hxm : x.mem = m <;> by_cases hym : y.mem = m <;>
        simp [hxm, hym, List.filter_cons]

theorem sortDesc_filter (l : List ProcInfo) (m : Nat) :
    (sortDesc l).filter (fun p => decide (p.mem = m)) =
      l.filter (fun p => decide (p.mem = m)) := by
  induction l with
  | nil => rfl
  | cons x xs ih =>
    simp only [sortDesc, filter_insertDesc, List.filter_cons, ih]
    by_cases hxm : x.mem = m <;> simp [hxm]

/-! ## Treeview primitive lemmas -/

theorem insertAt_append (A B : List Row) (r : Row) :
    insertAt (A ++ B) A.length r = A ++ r :: B := by
  simp [insertAt, List.take_left, List.drop_left]

theorem find?_split (A C : List Row) (b : Row) (q : Row → Bool)
    (hA : ∀ a ∈ A, q a = false) (hb : q b = true) :
    (A ++ b :: C).find? q = some b := by
  induction A with
  | nil => simp [List.find?_cons, hb]
  | cons a A ih =>
    have ha := hA a (by simp)
    simp only [List.cons_append, List.find?_cons, ha, cond_false]
    exact ih (fun x hx => hA x (by simp [hx]))

theorem eraseP_split (A C : List Row) (b : Row) (q : Row → Bool)
    (hA : ∀ a ∈ A, q a = false) (hb : q b = true) :
    (A ++ b :: C).eraseP q = A ++ C := by
  induction A with
  | nil => simp [List.eraseP_cons, hb]
  | cons a A ih =>
    have ha := hA a (by simp)
    simp only [List.cons_append, List.eraseP_cons, ha, cond_false]
    rw [ih (fun x hx => hA x (by simp [hx]))]

theorem findIdx_split (A C : List Row) (b : Row) (q : Row → Bool)
    (hA : ∀ a ∈ A, q a = false) (hb : q b = true) :
    (A ++ b :: C).findIdx q = A.length := by
  induction A with
  | nil => simp [List.findIdx_cons, hb]
  | cons a A ih =>
    have ha := hA a (by simp)
    simp only [List.cons_append, List.findIdx_cons, ha, cond_false]
    rw [ih (fun x hx => hA x (by simp [hx]))]
    simp

theorem moveTo_pull (A R1 R2 : List Row) (b : Row)
    (hA : ∀ a ∈ A ++ R1, a.itemId ≠ b.itemId) :
    moveTo ((A ++ R1) ++ b :: R2) b.itemId A.length = A ++ b :: (R1 ++ R2) := by
  have hq : ∀ a ∈ A ++ R1, (fun r => decide (r.itemId = b.itemId)) a = false := by
    intro a ha
    simp [hA a ha]
  have hb : (fun r : Row => decide (r.itemId = b.itemId)) b = true := by simp
  unfold moveTo
  rw [find?_split (A ++ R1) R2 b _ hq hb]
  rw [eraseP_split (A ++ R1) R2 b _ hq hb]
  show insertAt ((A ++ R1) ++ R2) A.length b = A ++ b :: (R1 ++ R2)
  rw [List.append_assoc]
  exact insertAt_append A (R1 ++ R2) b

theorem moveTo_noop (A C : List Row) (b : Row)
    (hA : ∀ a ∈ A, a.itemId ≠ b.itemId) :
    moveTo (A ++ b :: C) b.itemId A.length = A ++ b :: C := by
  have := moveTo_pull A [] C b (by simpa using hA)
  simpa using this

theorem updValues_eq_of_absent (p : ProcInfo) (itemId : Nat) :
    ∀ rows : List Row, (∀ r ∈ rows, r.itemId ≠ itemId) →
      updValues p itemId rows = rows := by
  intro rows
  induction rows with
  | nil => intro _; rfl
  | cons r rest ih =>
    intro h
    have hrest := ih (fun x hx => h x (by simp [hx]))
    simp only [updValues, List.map_cons] at hrest ⊢
    rw [if_neg (h r (by simp)), hrest]

/-! ## Association-list lemmas -/

theorem alistLookup_existingOf (rows : List Row) (q : Nat) :
    alistLookup (existingOf rows) q = origIdOf rows q := by
  simp only [alistLookup, existingOf, origIdOf, List.find?_map]
  rw [Option.map_map]
  rfl

theorem existing_lookup_mem {orig : List Row} {q j : Nat}
    (h : alistLookup (existingOf orig) q = some j) :
    ∃ r ∈ orig, r.pid = q ∧ r.itemId = j := by
  rw [alistLookup_existingOf] at h
  simp only [origIdOf, Option.map_eq_some'] at h
  obtain ⟨r, hfind, hj⟩ := h
  refine ⟨r, List.mem_of_find?_eq_some hfind, ?_, hj⟩
  have := List.find?_some hfind
  simpa using this

theorem existing_lookup_none {orig : List Row} {q : Nat} :
    alistLookup (existingOf orig) q = none ↔ q ∉ orig.map Row.pid := by
  rw [alistLookup_existingOf]
  simp only [origIdOf, Option.map_eq_none', List.find?_eq_none, List.mem_map]
  constructor
  · rintro h ⟨r, hr, rfl⟩
    exact (by simpa using h r hr)
  · intro h r hr
    simp only [decide_eq_true_eq]
    intro hq
    exact h ⟨r, hr, hq⟩

theorem existing_lookup_of_mem {orig : List Row}
    (hnd : (orig.map Row.pid).Nodup) {r : Row} (hr : r ∈ orig) :
    alistLookup (existingOf orig) r.pid = some r.itemId := by
  rw [alistLookup_existingOf]
  unfold origIdOf
  have hfind : orig.find? (fun s => s.pid = r.pid) = some r := by
    induction orig with
    | nil => simp at hr
    | cons a rest ih =>
      rw [List.map_cons, List.nodup_cons] at hnd
      rcases List.mem_cons.mp hr with rfl | hrr
      · simp [List.find?_cons]
      · have hane : ¬ (a.pid = r.pid) := by
          intro he
          exact hnd.1 (he ▸ List.mem_map_of_mem Row.pid hrr)
        simp only [List.find?_cons, decide_eq_false hane, cond_false]
        exact ih hnd.2 hrr
  rw [hfind]
  rfl

/-! ## `idAssign` lemmas -/

theorem idAssign_cons_some {E : List (Nat × Nat)} {n0 : Nat} {p : ProcInfo}
    {rest : List ProcInfo} {j : Nat} (h : alistLookup E p.pid = some j) :
    idAssign E n0 (p :: rest) = j :: idAssign E n0 rest := by
  simp [idAssign, h]

theorem idAssign_cons_none {E : List (Nat × Nat)} {n0 : Nat} {p : ProcInfo}
    {rest : List ProcInfo} (h : alistLookup E p.pid = none) :
    idAssign E n0 (p :: rest) = n0 :: idAssign E (n0 + 1) rest := by
  simp [idAssign, h]

theorem idAssign_length (E : List (Nat × Nat)) (n0 : Nat) (l : List ProcInfo) :
    (idAssign E n0 l).length = l.length := by
  induction l generalizing n0 with
  | nil => rfl
  | cons p rest ih =>
    cases h : alistLookup E p.pid with
    | some j => rw [idAssign_cons_some h]; simp [ih]
    | none => rw [idAssign_cons_none h]; simp [ih]

theorem countNew_cons (E : List (Nat × Nat)) (q : ProcInfo) (d : List ProcInfo) :
    countNew E (q :: d) =
      (if (alistLookup E q.pid).isNone then 1 else 0) + countNew E d := by
  simp only [countNew, List.countP_cons]
  cases h : alistLookup E q.pid <;> simp [h] <;> omega

theorem assignedId_skip {E : List (Nat × Nat)} {n0 : Nat} {q : ProcInfo}
    {d : List ProcInfo} {j : Nat} (h : alistLookup E q.pid = some j)
    (p : ProcInfo) : assignedId E n0 d p = assignedId E n0 (q :: d) p := by
  cases hp : alistLookup E p.pid <;>
    simp [assignedId, hp, countNew_cons, h]

theorem assignedId_shift {E : List (Nat × Nat)} {n0 : Nat} {q : ProcInfo}
    {d : List ProcInfo} (h : alistLookup E q.pid = none)
    (p : ProcInfo) : assignedId E (n0 + 1) d p = assignedId E n0 (q :: d) p := by
  cases hp : alistLookup E p.pid <;>
    simp [assignedId, hp, countNew_cons, h] <;> omega

theorem idAssign_append (E : List (Nat × Nat)) (n0 : Nat) (d : List ProcInfo)
    (p : ProcInfo) :
    idAssign E n0 (d ++ [p]) = idAssign E n0 d ++ [assignedId E n0 d p] := by
  induction d generalizing n0 with
  | nil =>
    cases h : alistLookup E p.pid with
    | some j =>
      rw [List.nil_append, idAssign_cons_some h]
      simp [idAssign, assignedId, h]
    | none =>
      rw [List.nil_append, idAssign_cons_none h]
      simp [idAssign, assignedId, h, countNew]
  | cons q d ih =>
    cases h : alistLookup E q.pid with
    | some j =>
      rw [List.cons_append, idAssign_cons_some h, idAssign_cons_some h, ih n0,
        assignedId_skip h p]
      simp
    | none =>
      rw [List.cons_append, idAssign_cons_none h, idAssign_cons_none h, ih (n0 + 1),
        assignedId_shift h p]
      simp

theorem countNew_append (E : List (Nat × Nat)) (d l : List ProcInfo) :
    countNew E (d ++ l) = countNew E d + countNew E l := by
  simp [countNew, List.countP_append]

theorem mem_idAssign {E : List (Nat × Nat)} {n0 : Nat} {l : List ProcInfo} {j : Nat}
    (hj : j ∈ idAssign E n0 l) :
    (∃ p ∈ l, alistLookup E p.pid = some j) ∨
      (n0 ≤ j ∧ j < n0 + countNew E l) := by
  induction l generalizing n0 with
  | nil => simp [idAssign] at hj
  | cons p rest ih =>
    cases h : alistLookup E p.pid with
    | some itemId =>
      rw [idAssign_cons_some h] at hj
      rcases List.mem_cons.mp hj with rfl | hj'
      · exact Or.inl ⟨p, by simp, h⟩
      · rcases ih hj' with ⟨q, hq, hlq⟩ | ⟨h1, h2⟩
        · exact Or.inl ⟨q, by simp [hq], hlq⟩
        · refine Or.inr ⟨h1, ?_⟩
          rw [countNew_cons]
          omega
    | none =>
      rw [idAssign_cons_none h] at hj
      have hcnt : countNew E (p :: rest) = 1 + countNew E rest := by
        rw [countNew_cons, h]
        simp
      rcases List.mem_cons.mp hj with rfl | hj'
      · exact Or.inr ⟨Nat.le_refl _, by omega⟩
      · rcases ih hj' with ⟨q, hq, hlq⟩ | ⟨h1, h2⟩
        · exact Or.inl ⟨q, by simp [hq], hlq⟩
        · exact Or.inr ⟨by omega, by omega⟩

theorem idAssign_nodup {E : List (Nat × Nat)} {l : List ProcInfo} :
    ∀ {n0 : Nat},
    (l.map ProcInfo.pid).Nodup →
    (∀ q j, alistLookup E q = some j → j < n0) →
    (∀ q q' j, alistLookup E q = some j → alistLookup E q' = some j → q = q') →
    (idAssign E n0 l).Nodup := by
  induction l with
  | nil => intro n0 _ _ _; simp [idAssign]
  | cons p rest ih =>
    intro n0 hnd hlt hinj
    rw [List.map_cons, List.nodup_cons] at hnd
    cases h : alistLookup E p.pid with
    | some itemId =>
      rw [idAssign_cons_some h, List.nodup_cons]
      refine ⟨?_, ih hnd.2 hlt hinj⟩
      intro hmem
      rcases mem_idAssign hmem with ⟨q, hq, hlq⟩ | ⟨h1, _⟩
      · have : q.pid = p.pid := hinj q.pid p.pid itemId hlq h
        exact hnd.1 (this ▸ List.mem_map_of_mem ProcInfo.pid hq)
      · exact absurd (hlt p.pid itemId h) (by omega)
    | none =>
      rw [idAssign_cons_none h, List.nodup_cons]
      refine ⟨?_, ih hnd.2 (fun q j hq => Nat.lt_succ_of_lt (hlt q j hq)) hinj⟩
      intro hmem
      rcases mem_idAssign hmem with ⟨q, hq, hlq⟩ | ⟨h1, _⟩
      · exact absurd (hlt q.pid n0 hlq) (by omega)
      · omega

theorem idAssign_lt {E : List (Nat × Nat)} {n0 : Nat} {l : List ProcInfo}
    (hlt : ∀ q j, alistLookup E q = some j → j < n0) :
    ∀ j ∈ idAssign E n0 l, j < n0 + countNew E l := by
  intro j hj
  rcases mem_idAssign hj with ⟨q, _, hlq⟩ | ⟨_, h2⟩
  · have := hlt q.pid j hlq
    omega
  · exact h2

/-! ## Loop characterisation -/

theorem map_itemId_zipWith :
    ∀ (l : List ProcInfo) (ids : List Nat), l.length = ids.length →
      (List.zipWith rowOf l ids).map Row.itemId = ids := by
  intro l
  induction l with
  | nil =>
    intro ids h
    cases ids with
    | nil => rfl
    | cons i is => simp at h
  | cons p rest ih =>
    intro ids h
    cases ids with
    | nil => simp at h
    | cons i is =>
      simp only [List.zipWith_cons_cons, List.map_cons, rowOf]
      rw [ih is (by simpa using h)]

theorem map_pid_zipWith :
    ∀ (l : List ProcInfo) (ids : List Nat), l.length = ids.length →
      (List.zipWith rowOf l ids).map Row.pid = l.map ProcInfo.pid := by
  intro l
  induction l with
  | nil => intro ids h; rfl
  | cons p rest ih =>
    intro ids h
    cases ids with
    | nil => simp at h
    | cons i is =>
      simp only [List.zipWith_cons_cons, List.map_cons, rowOf]
      rw [ih is (by simpa using h)]

theorem zipWith_length_of_eq (l : List ProcInfo) (ids : List Nat)
    (h : l.length = ids.length) : (List.zipWith rowOf l ids).length = l.length := by
  simp [List.length_zipWith, h]

theorem updValues_split (p : ProcInfo) (itemId : Nat) (X Y : List Row) (r0 : Row)
    (hX : ∀ a ∈ X, a.itemId ≠ itemId) (hY : ∀ a ∈ Y, a.itemId ≠ itemId)
    (hr0 : r0.itemId = itemId) :
    updValues p itemId (X ++ r0 :: Y) = X ++ rowOf p itemId :: Y := by
  unfold updValues
  rw [List.map_append, List.map_cons]
  have h1 : X.map (fun r => if r.itemId = itemId then
      { r with pid := p.pid, name := p.name, mem := p.mem, tag := p.ess } else r) = X :=
    updValues_eq_of_absent p itemId X hX
  have h2 : Y.map (fun r => if r.itemId = itemId then
      { r with pid := p.pid, name := p.name, mem := p.mem, tag := p.ess } else r) = Y :=
    updValues_eq_of_absent p itemId Y hY
  simp only [updValues] at h1 h2
  rw [h1, h2, if_pos hr0]
  have : ({ r0 with pid := p.pid, name := p.name, mem := p.mem, tag := p.ess } : Row)
      = rowOf p itemId := by
    simp [rowOf, ← hr0]
  rw [this]

theorem loopStep_some {existing : List (Nat × Nat)} {i : Nat} {p : ProcInfo}
    {ls : LoopState} {id : Nat} (h : alistLookup existing p.pid = some id) :
    loopStep existing i p ls =
      ⟨moveTo (updValues p id ls.tree) id i,
       ls.newItems ++ [(p.pid, id)], ls.nextId,
       ls.trace ++ [Op.update id,
         Op.move id (idxOfId (updValues p id ls.tree) id) i]⟩ := by
  simp [loopStep, h]

theorem loopStep_none {existing : List (Nat × Nat)} {i : Nat} {p : ProcInfo}
    {ls : LoopState} (h : alistLookup existing p.pid = none) :
    loopStep existing i p ls =
      ⟨moveTo (insertAt ls.tree i (rowOf p ls.nextId)) ls.nextId i,
       ls.newItems ++ [(p.pid, ls.nextId)], ls.nextId + 1,
       ls.trace ++ [Op.insert i ls.nextId p.pid,
         Op.move ls.nextId (idxOfId (insertAt ls.tree i (rowOf p ls.nextId)) ls.nextId) i]⟩ := by
  simp [loopStep, h]

theorem loopStep_expected
    (orig : List Row) (n0 : Nat)
    (hp : (orig.map Row.pid).Nodup)
    (hi : (orig.map Row.itemId).Nodup)
    (hb : ∀ r ∈ orig, r.itemId < n0)
    (done : List ProcInfo) (p : ProcInfo)
    (hpid : p.pid ∉ done.map ProcInfo.pid)
    (ni : List (Nat × Nat)) (tr : List Op) :
    ∃ ops : List Op,
      loopStep (existingOf orig) done.length p
          ⟨treeExp (existingOf orig) orig n0 done, ni,
           nidExp (existingOf orig) n0 done, tr⟩
        = ⟨treeExp (existingOf orig) orig n0 (done ++ [p]),
           ni ++ [(p.pid, assignedId (existingOf orig) n0 done p)],
           nidExp (existingOf orig) n0 (done ++ [p]), tr ++ ops⟩ ∧
      (∀ op ∈ ops, isLoopOp op = true) := by
  have hlt : ∀ q j, alistLookup (existingOf orig) q = some j → j < n0 := by
    intro q j h
    obtain ⟨r, hr, _, hid⟩ := existing_lookup_mem h
    exact hid ▸ hb r hr
  have hinj : ∀ q q' j, alistLookup (existingOf orig) q = some j →
      alistLookup (existingOf orig) q' = some j → q = q' := by
    intro q q' j h h'
    obtain ⟨r, hr, hq, hid⟩ := existing_lookup_mem h
    obtain ⟨r', hr', hq', hid'⟩ := existing_lookup_mem h'
    have hrr : r = r' := List.inj_on_of_nodup_map hi hr hr' (by rw [hid, hid'])
    rw [← hq, ← hq', hrr]
  have hlen : (idAssign (existingOf orig) n0 done).length = done.length :=
    idAssign_length _ n0 done
  have hDlen : (List.zipWith rowOf done (idAssign (existingOf orig) n0 done)).length
      = done.length := zipWith_length_of_eq done _ hlen.symm
  have hDids : (List.zipWith rowOf done (idAssign (existingOf orig) n0 done)).map
      Row.itemId = idAssign (existingOf orig) n0 done :=
    map_itemId_zipWith done _ hlen.symm
  have hmemD : ∀ a ∈ List.zipWith rowOf done (idAssign (existingOf orig) n0 done),
      a.itemId ∈ idAssign (existingOf orig) n0 done := by
    intro a ha
    rw [← hDids]
    exact List.mem_map_of_mem _ ha
  cases hlook : alistLookup (existingOf orig) p.pid with
  | some id =>
    obtain ⟨r0, hr0mem, hr0pid, hr0id⟩ := existing_lookup_mem hlook
    have hid_lt : id < n0 := hlt p.pid id hlook
    have hDnot : ∀ a ∈ List.zipWith rowOf done (idAssign (existingOf orig) n0 done),
        a.itemId ≠ id := by
      intro a ha heq
      rcases mem_idAssign (hmemD a ha) with ⟨q, hq, hlq⟩ | ⟨hge, _⟩
      · rw [heq] at hlq
        have hqq : q.pid = p.pid := hinj q.pid p.pid id hlq hlook
        exact hpid (hqq ▸ List.mem_map_of_mem ProcInfo.pid hq)
      · omega
    have hr0R : r0 ∈ orig.filter
        (fun r => !(decide (r.pid ∈ done.map ProcInfo.pid))) := by
      rw [List.mem_filter]
      exact ⟨hr0mem, by simp [hr0pid, hpid]⟩
    obtain ⟨R1, R2, hsplit⟩ := List.append_of_mem hr0R
    have horigNodup : orig.Nodup := List.Nodup.of_map Row.itemId hi
    have hRnodup : (orig.filter
        (fun r => !(decide (r.pid ∈ done.map ProcInfo.pid)))).Nodup :=
      horigNodup.filter _
    rw [hsplit, List.nodup_append] at hRnodup
    have hr0notR1 : r0 ∉ R1 := by
      intro hmem
      exact hRnodup.2.2 hmem (List.mem_cons_self r0 R2)
    have hr0notR2 : r0 ∉ R2 := by
      have := hRnodup.2.1
      rw [List.nodup_cons] at this
      exact this.1
    have hR1orig : ∀ a ∈ R1, a ∈ orig := by
      intro a ha
      have : a ∈ orig.filter (fun r => !(decide (r.pid ∈ done.map ProcInfo.pid))) := by
        rw [hsplit]
        exact List.mem_append_left _ ha
      exact (List.mem_filter.mp this).1
    have hR2orig : ∀ a ∈ R2, a ∈ orig := by
      intro a ha
      have : a ∈ orig.filter (fun r => !(decide (r.pid ∈ done.map ProcInfo.pid))) := by
        rw [hsplit]
        exact List.mem_append_right _ (List.mem_cons_of_mem _ ha)
      exact (List.mem_filter.mp this).1
    have hR1not : ∀ a ∈ R1, a.itemId ≠ id := by
      intro a ha heq
      have hae : a = r0 :=
        List.inj_on_of_nodup_map hi (hR1orig a ha) hr0mem (by rw [heq, hr0id])
      exact hr0notR1 (hae ▸ ha)
    have hR2not : ∀ a ∈ R2, a.itemId ≠ id := by
      intro a ha heq
      have hae : a = r0 :=
        List.inj_on_of_nodup_map hi (hR2orig a ha) hr0mem (by rw [heq, hr0id])
      exact hr0notR2 (hae ▸ ha)
    have hR1pid : ∀ a ∈ R1, a.pid ≠ p.pid := by
      intro a ha heq
      have hae : a = r0 :=
        List.inj_on_of_nodup_map hp (hR1orig a ha) hr0mem (by rw [heq, hr0pid])
      exact hr0notR1 (hae ▸ ha)
    have hR2pid : ∀ a ∈ R2, a.pid ≠ p.pid := by
      intro a ha heq
      have hae : a = r0 :=
        List.inj_on_of_nodup_map hp (hR2orig a ha) hr0mem (by rw [heq, hr0pid])
      exact hr0notR2 (hae ▸ ha)
    have haid : assignedId (existingOf orig) n0 done p = id := by
      simp [assignedId, hlook]
    -- the updated tree
    have hupd : updValues p id (treeExp (existingOf orig) orig n0 done)
        = (List.zipWith rowOf done (idAssign (existingOf orig) n0 done) ++ R1)
            ++ rowOf p id :: R2 := by
      rw [treeExp, hsplit, ← List.append_assoc]
      exact updValues_split p id _ R2 r0
        (by
          intro a ha
          rcases List.mem_append.mp ha with h | h
          · exact hDnot a h
          · exact hR1not a h)
        hR2not hr0id
    have hidx : idxOfId ((List.zipWith rowOf done (idAssign (existingOf orig) n0 done)
        ++ R1) ++ rowOf p id :: R2) id
        = (List.zipWith rowOf done (idAssign (existingOf orig) n0 done) ++ R1).length := by
      unfold idxOfId
      apply findIdx_split
      · intro a ha
        rcases List.mem_append.mp ha with h | h
        · simp [hDnot a h]
        · simp [hR1not a h]
      · simp [rowOf]
    have hmove : moveTo ((List.zipWith rowOf done (idAssign (existingOf orig) n0 done)
        ++ R1) ++ rowOf p id :: R2) id done.length
        = List.zipWith rowOf done (idAssign (existingOf orig) n0 done)
            ++ rowOf p id :: (R1 ++ R2) := by
      have hmp := moveTo_pull
        (List.zipWith rowOf done (idAssign (existingOf orig) n0 done)) R1 R2 (rowOf p id)
        (by
          intro a ha
          rcases List.mem_append.mp ha with h | h
          · exact hDnot a h
          · exact hR1not a h)
      rw [← hDlen]
      exact hmp
    have htree2 : treeExp (existingOf orig) orig n0 (done ++ [p])
        = List.zipWith rowOf done (idAssign (existingOf orig) n0 done)
            ++ rowOf p id :: (R1 ++ R2) := by
      rw [treeExp, idAssign_append, haid,
        List.zipWith_append _ _ _ _ _ hlen.symm]
      have hfil : orig.filter
          (fun r => !(decide (r.pid ∈ (done ++ [p]).map ProcInfo.pid)))
          = R1 ++ R2 := by
        have step1 : orig.filter
            (fun r => !(decide (r.pid ∈ (done ++ [p]).map ProcInfo.pid)))
            = (orig.filter (fun r => !(decide (r.pid ∈ done.map ProcInfo.pid)))).filter
                (fun r => !(decide (r.pid = p.pid))) := by
          rw [List.filter_filter]
          apply List.filter_congr
          intro a _
          by_cases h1 : a.pid ∈ done.map ProcInfo.pid <;>
            by_cases h2 : a.pid = p.pid <;>
              simp [h1, h2, List.map_append]
        rw [step1, hsplit, List.filter_append, List.filter_cons]
        have hkeep1 : R1.filter (fun r => !(decide (r.pid = p.pid))) = R1 :=
          List.filter_eq_self.mpr (fun a ha => by simp [hR1pid a ha])
        have hkeep2 : R2.filter (fun r => !(decide (r.pid = p.pid))) = R2 :=
          List.filter_eq_self.mpr (fun a ha => by simp [hR2pid a ha])
        rw [hkeep1, hkeep2]
        simp [hr0pid]
      rw [hfil]
      simp
    have hnid2 : nidExp (existingOf orig) n0 (done ++ [p])
        = nidExp (existingOf orig) n0 done := by
      simp [nidExp, countNew_append, countNew, hlook]
    refine ⟨[Op.update id, Op.move id
      ((List.zipWith rowOf done (idAssign (existingOf orig) n0 done) ++ R1).length)
      done.length], ?_, ?_⟩
    · rw [loopStep_some hlook]
      simp only []
      rw [hupd, hidx, hmove, htree2, hnid2, haid]
    · intro op hop
      rcases List.mem_cons.mp hop with rfl | hop'
      · rfl
      · rcases List.mem_cons.mp hop' with rfl | hop''
        · rfl
        · simp at hop''
  | none =>
    have hpnotorig : p.pid ∉ orig.map Row.pid := existing_lookup_none.mp hlook
    have haid : assignedId (existingOf orig) n0 done p
        = nidExp (existingOf orig) n0 done := by
      simp [assignedId, hlook, nidExp]
    have hDnot : ∀ a ∈ List.zipWith rowOf done (idAssign (existingOf orig) n0 done),
        a.itemId ≠ nidExp (existingOf orig) n0 done := by
      intro a ha heq
      have := idAssign_lt hlt a.itemId (hmemD a ha)
      simp [nidExp] at heq
      omega
    have hRnot : ∀ a ∈ orig.filter (fun r => !(decide (r.pid ∈ done.map ProcInfo.pid))),
        a.itemId ≠ nidExp (existingOf orig) n0 done := by
      intro a ha heq
      have := hb a (List.mem_filter.mp ha).1
      simp [nidExp] at heq
      omega
    have hins : insertAt (treeExp (existingOf orig) orig n0 done) done.length
        (rowOf p (nidExp (existingOf orig) n0 done))
        = List.zipWith rowOf done (idAssign (existingOf orig) n0 done)
            ++ rowOf p (nidExp (existingOf orig) n0 done)
              :: orig.filter (fun r => !(decide (r.pid ∈ done.map ProcInfo.pid))) := by
      rw [treeExp, ← hDlen]
      exact insertAt_append _ _ _
    have hidx : idxOfId (List.zipWith rowOf done (idAssign (existingOf orig) n0 done)
        ++ rowOf p (nidExp (existingOf orig) n0 done)
          :: orig.filter (fun r => !(decide (r.pid ∈ done.map ProcInfo.pid))))
        (nidExp (existingOf orig) n0 done)
        = (List.zipWith rowOf done (idAssign (existingOf orig) n0 done)).length := by
      unfold idxOfId
      apply findIdx_split
      · intro a ha
        simp [hDnot a ha]
      · simp [rowOf]
    have hmove : moveTo (List.zipWith rowOf done (idAssign (existingOf orig) n0 done)
        ++ rowOf p (nidExp (existingOf orig) n0 done)
          :: orig.filter (fun r => !(decide (r.pid ∈ done.map ProcInfo.pid))))
        (nidExp (existingOf orig) n0 done) done.length
        = List.zipWith rowOf done (idAssign (existingOf orig) n0 done)
            ++ rowOf p (nidExp (existingOf orig) n0 done)
              :: orig.filter (fun r => !(decide (r.pid ∈ done.map ProcInfo.pid))) := by
      have hmn := moveTo_noop
        (List.zipWith rowOf done (idAssign (existingOf orig) n0 done))
        (orig.filter (fun r => !(decide (r.pid ∈ done.map ProcInfo.pid))))
        (rowOf p (nidExp (existingOf orig) n0 done)) hDnot
      rw [← hDlen]
      exact hmn
    have htree2 : treeExp (existingOf orig) orig n0 (done ++ [p])
        = List.zipWith rowOf done (idAssign (existingOf orig) n0 done)
            ++ rowOf p (nidExp (existingOf orig) n0 done)
              :: orig.filter (fun r => !(decide (r.pid ∈ done.map ProcInfo.pid))) := by
      rw [treeExp, idAssign_append, haid,
        List.zipWith_append _ _ _ _ _ hlen.symm]
      have hfil : orig.filter
          (fun r => !(decide (r.pid ∈ (done ++ [p]).map ProcInfo.pid)))
          = orig.filter (fun r => !(decide (r.pid ∈ done.map ProcInfo.pid))) := by
        apply List.filter_congr
        intro a ha
        have hap : a.pid ≠ p.pid := by
          intro he
          exact hpnotorig (he ▸ List.mem_map_of_mem Row.pid ha)
        by_cases h1 : a.pid ∈ done.map ProcInfo.pid <;>
          simp [h1, hap, List.map_append]
      rw [hfil]
      simp
    have hnid2 : nidExp (existingOf orig) n0 (done ++ [p])
        = nidExp (existingOf orig) n0 done + 1 := by
      simp [nidExp, countNew_append, countNew, hlook]
      omega
    refine ⟨[Op.insert done.length (nidExp (existingOf orig) n0 done) p.pid,
      Op.move (nidExp (existingOf orig) n0 done)
        ((List.zipWith rowOf done (idAssign (existingOf orig) n0 done)).length)
        done.length], ?_, ?_⟩
    · rw [loopStep_none hlook]
      simp only []
      rw [hins, hidx, hmove, htree2, hnid2, haid]
    · intro op hop
      rcases List.mem_cons.mp hop with rfl | hop'
      · rfl
      · rcases List.mem_cons.mp hop' with rfl | hop''
        · rfl
        · simp at hop''

theorem niExp_append (E : List (Nat × Nat)) (n0 : Nat) (d : List ProcInfo)
    (p : ProcInfo) :
    niExp E n0 (d ++ [p]) = niExp E n0 d ++ [(p.pid, assignedId E n0 d p)] := by
  unfold niExp
  rw [idAssign_append, List.map_append]
  rw [List.zip_append (by simp [idAssign_length])]
  simp

theorem reconLoop_expected
    (orig : List Row) (n0 : Nat)
    (hp : (orig.map Row.pid).Nodup)
    (hi : (orig.map Row.itemId).Nodup)
    (hb : ∀ r ∈ orig, r.itemId < n0) :
    ∀ (todo done : List ProcInfo),
      ((done ++ todo).map ProcInfo.pid).Nodup →
      ∀ tr : List Op,
      ∃ ops : List Op,
        reconLoop (existingOf orig) done.length todo
            ⟨treeExp (existingOf orig) orig n0 done,
             niExp (existingOf orig) n0 done,
             nidExp (existingOf orig) n0 done, tr⟩
          = ⟨treeExp (existingOf orig) orig n0 (done ++ todo),
             niExp (existingOf orig) n0 (done ++ todo),
             nidExp (existingOf orig) n0 (done ++ todo), tr ++ ops⟩ ∧
        (∀ op ∈ ops, isLoopOp op = true) := by
  intro todo
  induction todo with
  | nil =>
    intro done hnd tr
    exact ⟨[], by simp [reconLoop], by simp⟩
  | cons p todo' ih =>
    intro done hnd tr
    have hpid : p.pid ∉ done.map ProcInfo.pid := by
      rw [List.map_append, List.nodup_append] at hnd
      intro hmem
      exact hnd.2.2 hmem (by simp)
    obtain ⟨ops1, hstep, hops1⟩ := loopStep_expected orig n0 hp hi hb done p hpid
      (niExp (existingOf orig) n0 done) tr
    rw [← niExp_append] at hstep
    have hnd' : (((done ++ [p]) ++ todo').map ProcInfo.pid).Nodup := by
      rw [← List.append_cons]
      exact hnd
    obtain ⟨ops2, hloop, hops2⟩ := ih (done ++ [p]) hnd' (tr ++ ops1)
    have hlen' : (done ++ [p]).length = done.length + 1 := by simp
    rw [hlen'] at hloop
    refine ⟨ops1 ++ ops2, ?_, ?_⟩
    · rw [reconLoop, hstep, hloop, ← List.append_cons, List.append_assoc]
    · intro op hop
      rcases List.mem_append.mp hop with h | h
      · exact hops1 op h
      · exact hops2 op h

theorem treeExp_nil (E : List (Nat × Nat)) (orig : List Row) (n0 : Nat) :
    treeExp E orig n0 [] = orig := by
  simp [treeExp, idAssign]

theorem reconLoop_entry (st : TreeState) (sorted : List ProcInfo)
    (hp : (st.rows.map Row.pid).Nodup)
    (hi : (st.rows.map Row.itemId).Nodup)
    (hb : ∀ r ∈ st.rows, r.itemId < st.nextId)
    (hnd : (sorted.map ProcInfo.pid).Nodup) :
    ∃ ops : List Op,
      reconLoop (existingOf st.rows) 0 sorted ⟨st.rows, [], st.nextId, []⟩
        = ⟨treeExp (existingOf st.rows) st.rows st.nextId sorted,
           niExp (existingOf st.rows) st.nextId sorted,
           nidExp (existingOf st.rows) st.nextId sorted, ops⟩ ∧
      (∀ op ∈ ops, isLoopOp op = true) := by
  obtain ⟨ops, hrun, hops⟩ := reconLoop_expected st.rows st.nextId hp hi hb sorted []
    (by simpa using hnd) []
  refine ⟨ops, ?_, hops⟩
  have h0 : treeExp (existingOf st.rows) st.rows st.nextId [] = st.rows :=
    treeExp_nil _ _ _
  have h1 : niExp (existingOf st.rows) st.nextId [] = [] := rfl
  have h2 : nidExp (existingOf st.rows) st.nextId [] = st.nextId := by
    simp [nidExp, countNew]
  rw [h0, h1, h2] at hrun
  simpa using hrun

/-! ## Stale-row sweep characterisation -/

theorem deleteStale_spec (newKeys : List Nat) :
    ∀ (E D : List Row) (sel : Option Nat) (tr : List Op),
      (∀ r ∈ E, newKeys.contains r.pid = false → ∀ d ∈ D, r.itemId ≠ d.itemId) →
      deleteStale newKeys (existingOf E)
          (D ++ E.filter (fun r => !(newKeys.contains r.pid)), sel, tr)
        = (D,
           if (E.filter (fun r => !(newKeys.contains r.pid))).any
               (fun r => sel = some r.itemId) then none else sel,
           tr ++ (E.filter (fun r => !(newKeys.contains r.pid))).map
             (fun r => Op.delete r.itemId)) := by
  intro E
  induction E with
  | nil =>
    intro D sel tr _
    simp [deleteStale]
  | cons e E' ih =>
    intro D sel tr h
    by_cases hk : newKeys.contains e.pid
    · have hkm : e.pid ∈ newKeys := by simpa using hk
      have hfil : (e :: E').filter (fun r => !(newKeys.contains r.pid))
          = E'.filter (fun r => !(newKeys.contains r.pid)) := by
        simp [List.filter_cons, hkm]
      rw [hfil]
      show deleteStale newKeys ((e.pid, e.itemId) :: existingOf E')
        (D ++ E'.filter (fun r => !(newKeys.contains r.pid)), sel, tr) = _
      rw [deleteStale, if_pos hk]
      exact ih D sel tr (fun r hr => h r (List.mem_cons_of_mem _ hr))
    · have hkf : newKeys.contains e.pid = false := by
        simpa using hk
      have hkm : e.pid ∉ newKeys := by simpa using hkf
      have hfil : (e :: E').filter (fun r => !(newKeys.contains r.pid))
          = e :: E'.filter (fun r => !(newKeys.contains r.pid)) := by
        simp [List.filter_cons, hkm]
      rw [hfil]
      show deleteStale newKeys ((e.pid, e.itemId) :: existingOf E')
        (D ++ e :: E'.filter (fun r => !(newKeys.contains r.pid)), sel, tr) = _
      rw [deleteStale, if_neg (by simp [hkm])]
      have herase : (D ++ e :: E'.filter (fun r => !(newKeys.contains r.pid))).eraseP
          (fun r => r.itemId = e.itemId)
          = D ++ E'.filter (fun r => !(newKeys.contains r.pid)) := by
        apply eraseP_split
        · intro a ha
          simp only [decide_eq_false_iff_not]
          exact fun he => (h e (List.mem_cons_self e E') hkf a ha) he.symm
        · simp
      rw [herase]
      rw [ih D (if sel = some e.itemId then none else sel) (tr ++ [Op.delete e.itemId])
        (fun r hr => h r (List.mem_cons_of_mem _ hr))]
      by_cases hsel : sel = some e.itemId
      · simp [hsel, List.any_cons]
      · have : (decide (sel = some e.itemId)) = false := by simp [hsel]
        simp only [List.any_cons, this, Bool.false_or, if_neg hsel]
        simp
  
/-! ## Generic association-list and `niExp` lookup lemmas -/

theorem alistLookup_none {d : List (Nat × Nat)} {k : Nat} :
    alistLookup d k = none ↔ k ∉ d.map Prod.fst := by
  simp only [alistLookup, Option.map_eq_none', List.find?_eq_none, List.mem_map]
  constructor
  · rintro h ⟨e, he, rfl⟩
    exact (by simpa using h e he)
  · intro h e he
    simp only [decide_eq_true_eq]
    intro hq
    exact h ⟨e, he, hq⟩

theorem niExp_keys (E : List (Nat × Nat)) (n0 : Nat) (l : List ProcInfo) :
    (niExp E n0 l).map Prod.fst = l.map ProcInfo.pid := by
  unfold niExp
  exact List.map_fst_zip _ _ (by simp [idAssign_length])

theorem niExp_lookup_none {E : List (Nat × Nat)} {n0 : Nat} {l : List ProcInfo}
    {p : Nat} (h : p ∉ l.map ProcInfo.pid) :
    alistLookup (niExp E n0 l) p = none := by
  rw [alistLookup_none, niExp_keys]
  exact h

theorem alistLookup_cons_eq (d : List (Nat × Nat)) (k v : Nat) :
    alistLookup ((k, v) :: d) k = some v := by
  simp [alistLookup, List.find?_cons]

theorem alistLookup_cons_ne (d : List (Nat × Nat)) {k k' : Nat} (v : Nat)
    (h : k' ≠ k) : alistLookup ((k', v) :: d) k = alistLookup d k := by
  simp [alistLookup, List.find?_cons, h]

theorem niExp_cons_some {E : List (Nat × Nat)} {n0 : Nat} {q : ProcInfo}
    {rest : List ProcInfo} {j : Nat} (h : alistLookup E q.pid = some j) :
    niExp E n0 (q :: rest) = (q.pid, j) :: niExp E n0 rest := by
  unfold niExp
  rw [idAssign_cons_some h, List.map_cons, List.zip_cons_cons]

theorem niExp_cons_none {E : List (Nat × Nat)} {n0 : Nat} {q : ProcInfo}
    {rest : List ProcInfo} (h : alistLookup E q.pid = none) :
    niExp E n0 (q :: rest) = (q.pid, n0) :: niExp E (n0 + 1) rest := by
  unfold niExp
  rw [idAssign_cons_none h, List.map_cons, List.zip_cons_cons]

theorem niExp_lookup_isSome (E : List (Nat × Nat)) (n0 : Nat) {l : List ProcInfo}
    {p : Nat} (h : p ∈ l.map ProcInfo.pid) :
    ∃ id, alistLookup (niExp E n0 l) p = some id := by
  cases hl : alistLookup (niExp E n0 l) p with
  | none =>
    rw [alistLookup_none, niExp_keys] at hl
    exact absurd h hl
  | some id => exact ⟨id, rfl⟩

theorem niExp_lookup_old {E : List (Nat × Nat)} {p j : Nat}
    (hE : alistLookup E p = some j) :
    ∀ (l : List ProcInfo) (n0 : Nat), p ∈ l.map ProcInfo.pid →
      alistLookup (niExp E n0 l) p = some j := by
  intro l
  induction l with
  | nil => intro n0 hp; simp at hp
  | cons q rest ih =>
    intro n0 hp
    by_cases hqp : q.pid = p
    · have hq : alistLookup E q.pid = some j := by rw [hqp]; exact hE
      rw [niExp_cons_some hq, hqp, alistLookup_cons_eq]
    · have hrest : p ∈ rest.map ProcInfo.pid := by
        rw [List.map_cons] at hp
        rcases List.mem_cons.mp hp with h | h
        · exact absurd h.symm hqp
        · exact h
      cases hq : alistLookup E q.pid with
      | some i => rw [niExp_cons_some hq, alistLookup_cons_ne _ _ hqp, ih n0 hrest]
      | none => rw [niExp_cons_none hq, alistLookup_cons_ne _ _ hqp, ih (n0 + 1) hrest]

/-! ## Assembling `_populate_tree` -/

theorem populate_tree_eq (st : TreeState) (sample : List ProcInfo) :
    populate_tree st sample =
      restoreSelection (selectedPid st)
        (reconLoop (existingOf st.rows) 0 (sortDesc sample)
          ⟨st.rows, [], st.nextId, []⟩).newItems
        (deleteStale ((reconLoop (existingOf st.rows) 0 (sortDesc sample)
            ⟨st.rows, [], st.nextId, []⟩).newItems.map Prod.fst)
          (existingOf st.rows)
          ((reconLoop (existingOf st.rows) 0 (sortDesc sample)
              ⟨st.rows, [], st.nextId, []⟩).tree, st.selection,
            (reconLoop (existingOf st.rows) 0 (sortDesc sample)
              ⟨st.rows, [], st.nextId, []⟩).trace)).1
        (deleteStale ((reconLoop (existingOf st.rows) 0 (sortDesc sample)
            ⟨st.rows, [], st.nextId, []⟩).newItems.map Prod.fst)
          (existingOf st.rows)
          ((reconLoop (existingOf st.rows) 0 (sortDesc sample)
              ⟨st.rows, [], st.nextId, []⟩).tree, st.selection,
            (reconLoop (existingOf st.rows) 0 (sortDesc sample)
              ⟨st.rows, [], st.nextId, []⟩).trace)).2.1
        (reconLoop (existingOf st.rows) 0 (sortDesc sample)
          ⟨st.rows, [], st.nextId, []⟩).nextId
        (deleteStale ((reconLoop (existingOf st.rows) 0 (sortDesc sample)
            ⟨st.rows, [], st.nextId, []⟩).newItems.map Prod.fst)
          (existingOf st.rows)
          ((reconLoop (existingOf st.rows) 0 (sortDesc sample)
              ⟨st.rows, [], st.nextId, []⟩).tree, st.selection,
            (reconLoop (existingOf st.rows) 0 (sortDesc sample)
              ⟨st.rows, [], st.nextId, []⟩).trace)).2.2 := rfl

theorem restoreSelection_none (ni : List (Nat × Nat)) (rows : List Row)
    (sel1 : Option Nat) (nid : Nat) (tr : List Op) :
    restoreSelection none ni rows sel1 nid tr = (⟨rows, sel1, nid⟩, tr) := rfl

theorem restoreSelection_found {ni : List (Nat × Nat)} {p id : Nat}
    (h : alistLookup ni p = some id) (rows : List Row)
    (sel1 : Option Nat) (nid : Nat) (tr : List Op) :
    restoreSelection (some p) ni rows sel1 nid tr
      = (⟨rows, some id, nid⟩, tr ++ [Op.selectionSet id]) := by
  simp [restoreSelection, h]

theorem restoreSelection_missing {ni : List (Nat × Nat)} {p : Nat}
    (h : alistLookup ni p = none) (rows : List Row)
    (sel1 : Option Nat) (nid : Nat) (tr : List Op) :
    restoreSelection (some p) ni rows sel1 nid tr = (⟨rows, sel1, nid⟩, tr) := by
  simp [restoreSelection, h]

/-! ## Selection helpers -/

theorem selection_none_of_selectedPid_none {st : TreeState}
    (hselok : selOk st = true) (h : selectedPid st = none) :
    st.selection = none := by
  cases hsel : st.selection with
  | none => rfl
  | some s =>
    exfalso
    rw [selOk, hsel] at hselok
    rw [List.any_eq_true] at hselok
    obtain ⟨r, hr, hrid⟩ := hselok
    have hfind : ∃ r', st.rows.find? (fun r' => r'.itemId = s) = some r' := by
      cases hf : st.rows.find? (fun r' => r'.itemId = s) with
      | none =>
        rw [List.find?_eq_none] at hf
        exact absurd hrid (by simpa using hf r hr)
      | some r' => exact ⟨r', rfl⟩
    obtain ⟨r', hr'⟩ := hfind
    rw [selectedPid, hsel] at h
    simp [hr'] at h

theorem selectedPid_some_elim {st : TreeState} {p : Nat}
    (h : selectedPid st = some p) :
    ∃ rsel, st.selection = some rsel.itemId ∧ rsel ∈ st.rows ∧ rsel.pid = p := by
  cases hsel : st.selection with
  | none => rw [selectedPid, hsel] at h; simp at h
  | some s =>
    rw [selectedPid, hsel] at h
    simp only [Option.some_bind, Option.map_eq_some'] at h
    obtain ⟨rsel, hfind, hp⟩ := h
    have hmem := List.mem_of_find?_eq_some hfind
    have hid : rsel.itemId = s := by simpa using List.find?_some hfind
    exact ⟨rsel, by rw [hid], hmem, hp⟩

/-! ## Lookup facts for the final display list -/

theorem zip_alistLookup_mem : ∀ (as : List Nat) (bs : List Nat) (k v : Nat),
    alistLookup (as.zip bs) k = some v → v ∈ bs := by
  intro as
  induction as with
  | nil => intro bs k v h; simp [alistLookup] at h
  | cons a as ih =>
    intro bs k v h
    cases bs with
    | nil => simp [alistLookup] at h
    | cons b bs =>
      rw [List.zip_cons_cons] at h
      by_cases hak : a = k
      · rw [hak, alistLookup_cons_eq] at h
        injection h with h
        simp [h]
      · rw [alistLookup_cons_ne _ _ hak] at h
        exact List.mem_cons_of_mem _ (ih bs k v h)

theorem existingOf_zipWith : ∀ (s : List ProcInfo) (ids : List Nat),
    s.length = ids.length →
    existingOf (List.zipWith rowOf s ids) = (s.map ProcInfo.pid).zip ids := by
  intro s
  induction s with
  | nil => intro ids h; rfl
  | cons q rest ih =>
    intro ids h
    cases ids with
    | nil => simp at h
    | cons i is =>
      simp only [List.zipWith_cons_cons, existingOf, List.map_cons, List.zip_cons_cons]
      have := ih is (by simpa using h)
      simp only [existingOf] at this
      rw [this]
      rfl

theorem zipWith_find_pid : ∀ (s : List ProcInfo) (ids : List Nat),
    s.length = ids.length → ∀ p : Nat,
    ((List.zipWith rowOf s ids).find? (fun r => r.pid = p)).map Row.itemId
      = alistLookup ((s.map ProcInfo.pid).zip ids) p := by
  intro s
  induction s with
  | nil => intro ids h p; rfl
  | cons q rest ih =>
    intro ids h p
    cases ids with
    | nil => simp at h
    | cons i is =>
      rw [List.zipWith_cons_cons, List.map_cons, List.zip_cons_cons]
      by_cases hqp : q.pid = p
      · rw [List.find?_cons_of_pos _ (by simp [rowOf, hqp]), hqp, alistLookup_cons_eq]
        rfl
      · rw [List.find?_cons_of_neg _ (by simp [rowOf, hqp]),
          alistLookup_cons_ne _ _ hqp]
        exact ih is (by simpa using h) p

theorem zipWith_find_by_id : ∀ (s : List ProcInfo) (ids : List Nat),
    s.length = ids.length → ids.Nodup → ∀ p id : Nat,
    alistLookup ((s.map ProcInfo.pid).zip ids) p = some id →
    ∃ r, (List.zipWith rowOf s ids).find? (fun r => r.itemId = id) = some r ∧
      r.pid = p ∧ r.itemId = id := by
  intro s
  induction s with
  | nil => intro ids h _ p id hl; simp [alistLookup] at hl
  | cons q rest ih =>
    intro ids h hnd p id hl
    cases ids with
    | nil => simp at h
    | cons i is =>
      rw [List.map_cons, List.zip_cons_cons] at hl
      rw [List.zipWith_cons_cons]
      rw [List.nodup_cons] at hnd
      by_cases hqp : q.pid = p
      · rw [hqp, alistLookup_cons_eq] at hl
        injection hl with hl
        refine ⟨rowOf q i, ?_, by simp [rowOf, hqp], by simp [rowOf, hl]⟩
        exact List.find?_cons_of_pos _ (by simp [rowOf, hl])
      · rw [alistLookup_cons_ne _ _ hqp] at hl
        have hid_mem : id ∈ is := zip_alistLookup_mem _ _ _ _ hl
        have hne : i ≠ id := fun he => hnd.1 (he ▸ hid_mem)
        rw [List.find?_cons_of_neg _ (by simp [rowOf, hne])]
        exact ih is (by simpa using h) hnd.2 p id hl

/-! ## Full characterisation of one reconcile pass -/

theorem populate_spec (st : TreeState) (sample : List ProcInfo)
    (hwf : WF st) (hnd : (sample.map ProcInfo.pid).Nodup) :
    (populate_tree st sample).1.rows
        = List.zipWith rowOf (sortDesc sample)
            (idAssign (existingOf st.rows) st.nextId (sortDesc sample)) ∧
    (populate_tree st sample).1.nextId
        = nidExp (existingOf st.rows) st.nextId (sortDesc sample) ∧
    (populate_tree st sample).1.selection
        = (selectedPid st).bind
            (alistLookup (niExp (existingOf st.rows) st.nextId (sortDesc sample))) ∧
    (∃ ops selTail : List Op,
      (populate_tree st sample).2
          = ops ++ (st.rows.filter (fun r =>
              !((((sortDesc sample).map ProcInfo.pid)).contains r.pid))).map
                (fun r => Op.delete r.itemId) ++ selTail ∧
      (∀ op ∈ ops, isLoopOp op = true) ∧
      (∀ op ∈ selTail, ∃ i, op = Op.selectionSet i)) := by
  obtain ⟨hp, hi, hb, hselok⟩ := hwf
  have hnds : ((sortDesc sample).map ProcInfo.pid).Nodup := sortDesc_pids_nodup hnd
  obtain ⟨ops, hrun, hops⟩ := reconLoop_entry st (sortDesc sample) hp hi hb hnds
  have hNI : (reconLoop (existingOf st.rows) 0 (sortDesc sample)
      ⟨st.rows, [], st.nextId, []⟩).newItems
      = niExp (existingOf st.rows) st.nextId (sortDesc sample) := by rw [hrun]
  have hTR : (reconLoop (existingOf st.rows) 0 (sortDesc sample)
      ⟨st.rows, [], st.nextId, []⟩).tree
      = treeExp (existingOf st.rows) st.rows st.nextId (sortDesc sample) := by rw [hrun]
  have hNX : (reconLoop (existingOf st.rows) 0 (sortDesc sample)
      ⟨st.rows, [], st.nextId, []⟩).nextId
      = nidExp (existingOf st.rows) st.nextId (sortDesc sample) := by rw [hrun]
  have hTRC : (reconLoop (existingOf st.rows) 0 (sortDesc sample)
      ⟨st.rows, [], st.nextId, []⟩).trace = ops := by rw [hrun]
  have hkeys : (niExp (existingOf st.rows) st.nextId (sortDesc sample)).map Prod.fst
      = (sortDesc sample).map ProcInfo.pid := niExp_keys _ _ _
  have htree : treeExp (existingOf st.rows) st.rows st.nextId (sortDesc sample)
      = List.zipWith rowOf (sortDesc sample)
          (idAssign (existingOf st.rows) st.nextId (sortDesc sample))
        ++ st.rows.filter (fun r =>
            !((((sortDesc sample).map ProcInfo.pid)).contains r.pid)) := by
    rw [treeExp]
    congr 1
    exact List.filter_congr (fun a _ => by simp [List.elem_eq_mem])
  have hdisj : ∀ r ∈ st.rows,
      (((sortDesc sample).map ProcInfo.pid).contains r.pid) = false →
      ∀ d ∈ List.zipWith rowOf (sortDesc sample)
          (idAssign (existingOf st.rows) st.nextId (sortDesc sample)),
        r.itemId ≠ d.itemId := by
    intro r hr hcont d hd he
    have hrstale : r.pid ∉ (sortDesc sample).map ProcInfo.pid := by
      simpa using hcont
    have hdid : d.itemId ∈ idAssign (existingOf st.rows) st.nextId (sortDesc sample) := by
      rw [← map_itemId_zipWith (sortDesc sample) _ (idAssign_length _ _ _).symm]
      exact List.mem_map_of_mem _ hd
    rcases mem_idAssign hdid with ⟨q, hq, hlq⟩ | ⟨hge, _⟩
    · obtain ⟨r', hr', hr'pid, hr'id⟩ := existing_lookup_mem hlq
      have hrr : r' = r := List.inj_on_of_nodup_map hi hr' hr (by rw [hr'id, ← he])
      have hpq : r.pid = q.pid := by rw [← hrr]; exact hr'pid
      exact hrstale (by rw [hpq]; exact List.mem_map_of_mem ProcInfo.pid hq)
    · have := hb r hr
      omega
  have hdel := deleteStale_spec ((sortDesc sample).map ProcInfo.pid) st.rows
      (List.zipWith rowOf (sortDesc sample)
        (idAssign (existingOf st.rows) st.nextId (sortDesc sample)))
      st.selection ops hdisj
  rw [populate_tree_eq, hNI, hTR, hNX, hTRC, hkeys, htree, hdel]
  cases hsp : selectedPid st with
  | none =>
    have hselnone : st.selection = none := selection_none_of_selectedPid_none hselok hsp
    rw [restoreSelection_none]
    refine ⟨rfl, rfl, ?_, ops, [], by simp, hops, by simp⟩
    simp only [Option.none_bind]
    rw [hselnone]
    split <;> rfl
  | some p =>
    obtain ⟨rsel, hselEq, hrselmem, hrselpid⟩ := selectedPid_some_elim hsp
    cases hlook : alistLookup (niExp (existingOf st.rows) st.nextId (sortDesc sample)) p with
    | some id =>
      rw [restoreSelection_found hlook]
      refine ⟨rfl, rfl, ?_, ops,
        [Op.selectionSet id], by simp, hops, by simp⟩
      simp [hlook]
    | none =>
      rw [restoreSelection_missing hlook]
      have hpnot : p ∉ (sortDesc sample).map ProcInfo.pid := by
        have := alistLookup_none.mp hlook
        rw [hkeys] at this
        exact this
      have hany : ((st.rows.filter (fun r =>
          !((((sortDesc sample).map ProcInfo.pid)).contains r.pid))).any
          (fun r => st.selection = some r.itemId)) = true := by
        rw [List.any_eq_true]
        refine ⟨rsel, ?_, by simp [hselEq]⟩
        rw [List.mem_filter]
        refine ⟨hrselmem, ?_⟩
        simp [List.elem_eq_mem, hrselpid, hpnot]
      refine ⟨rfl, rfl, ?_, ops, [], by simp, hops, by simp⟩
      simp only [Option.some_bind, hlook]
      rw [if_pos hany]

theorem existingOf_lookup_lt {rows : List Row} {n0 : Nat}
    (hb : ∀ r ∈ rows, r.itemId < n0) :
    ∀ q j, alistLookup (existingOf rows) q = some j → j < n0 := by
  intro q j h
  obtain ⟨r, hr, _, hid⟩ := existing_lookup_mem h
  exact hid ▸ hb r hr

theorem existingOf_lookup_inj {rows : List Row}
    (hi : (rows.map Row.itemId).Nodup) :
    ∀ q q' j, alistLookup (existingOf rows) q = some j →
      alistLookup (existingOf rows) q' = some j → q = q' := by
  intro q q' j h h'
  obtain ⟨r, hr, hq, hid⟩ := existing_lookup_mem h
  obtain ⟨r', hr', hq', hid'⟩ := existing_lookup_mem h'
  have hrr : r = r' := List.inj_on_of_nodup_map hi hr hr' (by rw [hid, hid'])
  rw [← hq, ← hq', hrr]

theorem rowIdOfPid_eq (st : TreeState) (p : Nat) :
    rowIdOfPid st p = origIdOf st.rows p := rfl

theorem niExp_def (E : List (Nat × Nat)) (n0 : Nat) (l : List ProcInfo) :
    niExp E n0 l = (l.map ProcInfo.pid).zip (idAssign E n0 l) := rfl

theorem mem_pids_sortDesc {sample : List ProcInfo} {p : Nat} :
    p ∈ (sortDesc sample).map ProcInfo.pid ↔ p ∈ sample.map ProcInfo.pid :=
  ((sortDesc_perm sample).map ProcInfo.pid).mem_iff

/-- C2: after a reconcile, the displayed order is exactly the sample
sorted by memory descending; the sort is genuinely descending and
stable (records of equal memory keep their sample order). -/
theorem C2_order_invariant (st : TreeState) (sample : List ProcInfo)
    (hwf : WF st) (hnd : (sample.map ProcInfo.pid).Nodup) :
    (populate_tree st sample).1.rows.map Row.pid
        = (sortDesc sample).map ProcInfo.pid ∧
    (sortDesc sample).Pairwise (fun a b => b.mem ≤ a.mem) ∧
    (∀ m : Nat, (sortDesc sample).filter (fun p => decide (p.mem = m))
        = sample.filter (fun p => decide (p.mem = m))) := by
  obtain ⟨hrows, _, _, _⟩ := populate_spec st sample hwf hnd
  refine ⟨?_, sortDesc_pairwise sample, fun m => sortDesc_filter sample m⟩
  rw [hrows]
  exact map_pid_zipWith _ _ (idAssign_length _ _ _).symm

theorem C2_witness :
    ((populate_tree ⟨[⟨1, 10, "a", 50, false⟩, ⟨2, 20, "b", 30, false⟩], some 2, 3⟩
        [⟨20, "b", 10, false⟩, ⟨30, "c", 90, false⟩]).1.rows.map Row.pid
      = (sortDesc [⟨20, "b", 10, false⟩, ⟨30, "c", 90, false⟩]).map ProcInfo.pid ∧
    (sortDesc [⟨20, "b", 10, false⟩, ⟨30, "c", 90, false⟩]).Pairwise
        (fun a b => b.mem ≤ a.mem) ∧
    (∀ m : Nat, (sortDesc [⟨20, "b", 10, false⟩, ⟨30, "c", 90, false⟩]).filter
          (fun p => decide (p.mem = m))
        = [⟨20, "b", 10, false⟩, ⟨30, "c", 90, false⟩].filter
            (fun p => decide (p.mem = m)))) :=
  C2_order_invariant ⟨[⟨1, 10, "a", 50, false⟩, ⟨2, 20, "b", 30, false⟩], some 2, 3⟩
    [⟨20, "b", 10, false⟩, ⟨30, "c", 90, false⟩] (by decide) (by decide)

/-- C4: the selection follows the pid, not the row position.  If the
previously selected pid is still sampled it stays selected; if it
vanished the selection becomes none; it never moves to another pid. -/
theorem C4_selection_survival (st : TreeState) (sample : List ProcInfo)
    (hwf : WF st) (hnd : (sample.map ProcInfo.pid).Nodup) :
    (match selectedPid st with
     | some p =>
        if p ∈ sample.map ProcInfo.pid
        then selectedPid (populate_tree st sample).1 = some p
        else (populate_tree st sample).1.selection = none
     | none => (populate_tree st sample).1.selection = none) := by
  have hwf' := hwf
  obtain ⟨hp, hi, hb, hselok⟩ := hwf'
  have hnds : ((sortDesc sample).map ProcInfo.pid).Nodup := sortDesc_pids_nodup hnd
  obtain ⟨hrows, hnx, hsel, _⟩ := populate_spec st sample hwf hnd
  cases hsp : selectedPid st with
  | none =>
    rw [hsel, hsp]
    rfl
  | some p =>
    show (if p ∈ sample.map ProcInfo.pid
      then selectedPid (populate_tree st sample).1 = some p
      else (populate_tree st sample).1.selection = none)
    by_cases hmem : p ∈ sample.map ProcInfo.pid
    · rw [if_pos hmem]
      have hmem' : p ∈ (sortDesc sample).map ProcInfo.pid := mem_pids_sortDesc.mpr hmem
      obtain ⟨id, hlook⟩ := niExp_lookup_isSome (existingOf st.rows) st.nextId hmem'
      have hs : (populate_tree st sample).1.selection = some id := by
        rw [hsel, hsp]
        simp [hlook]
      have hidnd : (idAssign (existingOf st.rows) st.nextId (sortDesc sample)).Nodup :=
        idAssign_nodup hnds (existingOf_lookup_lt hb) (existingOf_lookup_inj hi)
      rw [niExp_def] at hlook
      obtain ⟨r, hfind, hrpid, hrid⟩ := zipWith_find_by_id (sortDesc sample) _
        (idAssign_length _ _ _).symm hidnd p id hlook
      unfold selectedPid
      rw [hs]
      simp only [Option.some_bind]
      rw [hrows, hfind]
      simp [hrpid]
    · rw [if_neg hmem]
      rw [hsel, hsp]
      have hnone : alistLookup
          (niExp (existingOf st.rows) st.nextId (sortDesc sample)) p = none :=
        niExp_lookup_none (fun hc => hmem (mem_pids_sortDesc.mp hc))
      simp [hnone]

theorem C4_witness :
    (match selectedPid ⟨[⟨1, 10, "a", 50, false⟩, ⟨2, 20, "b", 30, false⟩], some 2, 3⟩ with
     | some p =>
        if p ∈ ([⟨20, "b", 10, false⟩, ⟨30, "c", 90, false⟩] :
            List ProcInfo).map ProcInfo.pid
        then selectedPid (populate_tree
            ⟨[⟨1, 10, "a", 50, false⟩, ⟨2, 20, "b", 30, false⟩], some 2, 3⟩
            [⟨20, "b", 10, false⟩, ⟨30, "c", 90, false⟩]).1 = some p
        else (populate_tree
            ⟨[⟨1, 10, "a", 50, false⟩, ⟨2, 20, "b", 30, false⟩], some 2, 3⟩
            [⟨20, "b", 10, false⟩, ⟨30, "c", 90, false⟩]).1.selection = none
     | none => (populate_tree
          ⟨[⟨1, 10, "a", 50, false⟩, ⟨2, 20, "b", 30, false⟩], some 2, 3⟩
          [⟨20, "b", 10, false⟩, ⟨30, "c", 90, false⟩]).1.selection = none) :=
  C4_selection_survival ⟨[⟨1, 10, "a", 50, false⟩, ⟨2, 20, "b", 30, false⟩], some 2, 3⟩
    [⟨20, "b", 10, false⟩, ⟨30, "c", 90, false⟩] (by decide) (by decide)

/-- C6: a pid present before and after the reconcile keeps its item
handle: the row is updated in place, never deleted, and no insert
creates a second handle for it. -/
theorem C6_identity_preservation (st : TreeState) (sample : List ProcInfo)
    (p : Nat) (hwf : WF st) (hnd : (sample.map ProcInfo.pid).Nodup)
    (hold : p ∈ st.rows.map Row.pid) (hnew : p ∈ sample.map ProcInfo.pid) :
    ∃ id, rowIdOfPid st p = some id ∧
      rowIdOfPid (populate_tree st sample).1 p = some id ∧
      Op.delete id ∉ (populate_tree st sample).2 := by
  have hwf' := hwf
  obtain ⟨hp, hi, hb, hselok⟩ := hwf'
  obtain ⟨hrows, hnx, hsel, ops, selTail, htr, hops, hselTail⟩ :=
    populate_spec st sample hwf hnd
  obtain ⟨r0, hr0mem, hr0pid⟩ := List.mem_map.mp hold
  have hlookE : alistLookup (existingOf st.rows) p = some r0.itemId := by
    have := existing_lookup_of_mem hp hr0mem
    rw [hr0pid] at this
    exact this
  have hidOld : rowIdOfPid st p = some r0.itemId := by
    rw [rowIdOfPid_eq, ← alistLookup_existingOf]
    exact hlookE
  have hmem' : p ∈ (sortDesc sample).map ProcInfo.pid := mem_pids_sortDesc.mpr hnew
  have hlookNI : alistLookup
      (niExp (existingOf st.rows) st.nextId (sortDesc sample)) p = some r0.itemId :=
    niExp_lookup_old hlookE (sortDesc sample) st.nextId hmem'
  have hidNew : rowIdOfPid (populate_tree st sample).1 p = some r0.itemId := by
    rw [rowIdOfPid_eq]
    unfold origIdOf
    rw [hrows]
    rw [zipWith_find_pid (sortDesc sample) _ (idAssign_length _ _ _).symm p]
    rw [← niExp_def]
    exact hlookNI
  refine ⟨r0.itemId, hidOld, hidNew, ?_⟩
  intro hmemdel
  rw [htr] at hmemdel
  rcases List.mem_append.mp hmemdel with hmem1 | hmemTail
  · rcases List.mem_append.mp hmem1 with hmemOps | hmemDel
    · have := hops _ hmemOps
      simp [isLoopOp] at this
    · rw [List.mem_map] at hmemDel
      obtain ⟨r, hrfil, hreq⟩ := hmemDel
      rw [List.mem_filter] at hrfil
      injection hreq with hreq
      have hrr : r = r0 := List.inj_on_of_nodup_map hi hrfil.1 hr0mem (by rw [hreq])
      have : r.pid ∈ (sortDesc sample).map ProcInfo.pid := by
        rw [hrr, hr0pid]
        exact hmem'
      have hcf := hrfil.2
      simp [List.elem_eq_mem, this] at hcf
  · obtain ⟨i, hi'⟩ := hselTail _ hmemTail
    simp at hi'

theorem C6_witness :
    ∃ id, rowIdOfPid ⟨[⟨1, 10, "a", 50, false⟩, ⟨2, 20, "b", 30, false⟩], some 2, 3⟩
        20 = some id ∧
      rowIdOfPid (populate_tree
        ⟨[⟨1, 10, "a", 50, false⟩, ⟨2, 20, "b", 30, false⟩], some 2, 3⟩
        [⟨20, "b", 10, false⟩, ⟨30, "c", 90, false⟩]).1 20 = some id ∧
      Op.delete id ∉ (populate_tree
        ⟨[⟨1, 10, "a", 50, false⟩, ⟨2, 20, "b", 30, false⟩], some 2, 3⟩
        [⟨20, "b", 10, false⟩, ⟨30, "c", 90, false⟩]).2 :=
  C6_identity_preservation ⟨[⟨1, 10, "a", 50, false⟩, ⟨2, 20, "b", 30, false⟩], some 2, 3⟩
    [⟨20, "b", 10, false⟩, ⟨30, "c", 90, false⟩] 20
    (by decide) (by decide) (by decide) (by decide)

/-! ## Structural trace facts (no scroll calls anywhere) -/

theorem loopStep_trace (existing : List (Nat × Nat)) (i : Nat) (p : ProcInfo)
    (ls : LoopState) :
    ∃ new, (loopStep existing i p ls).trace = ls.trace ++ new ∧
      ∀ op ∈ new, isLoopOp op = true := by
  cases h : alistLookup existing p.pid with
  | some id =>
    rw [loopStep_some h]
    refine ⟨_, rfl, ?_⟩
    intro op hop
    rcases List.mem_cons.mp hop with rfl | hop'
    · rfl
    · rcases List.mem_cons.mp hop' with rfl | hop''
      · rfl
      · simp at hop''
  | none =>
    rw [loopStep_none h]
    refine ⟨_, rfl, ?_⟩
    intro op hop
    rcases List.mem_cons.mp hop with rfl | hop'
    · rfl
    · rcases List.mem_cons.mp hop' with rfl | hop''
      · rfl
      · simp at hop''

theorem reconLoop_trace : ∀ (l : List ProcInfo) (existing : List (Nat × Nat))
    (i : Nat) (ls : LoopState),
    ∃ new, (reconLoop existing i l ls).trace = ls.trace ++ new ∧
      ∀ op ∈ new, isLoopOp op = true := by
  intro l
  induction l with
  | nil => intro existing i ls; exact ⟨[], by simp [reconLoop], by simp⟩
  | cons p rest ih =>
    intro existing i ls
    obtain ⟨n1, h1, hops1⟩ := loopStep_trace existing i p ls
    obtain ⟨n2, h2, hops2⟩ := ih existing (i + 1) (loopStep existing i p ls)
    refine ⟨n1 ++ n2, ?_, ?_⟩
    · rw [reconLoop, h2, h1, List.append_assoc]
    · intro op hop
      rcases List.mem_append.mp hop with h | h
      · exact hops1 op h
      · exact hops2 op h

theorem deleteStale_trace (newKeys : List Nat) :
    ∀ (entries : List (Nat × Nat)) (acc : List Row × Option Nat × List Op),
    ∃ new, (deleteStale newKeys entries acc).2.2 = acc.2.2 ++ new ∧
      ∀ op ∈ new, ∃ i, op = Op.delete i := by
  intro entries
  induction entries with
  | nil => intro acc; exact ⟨[], by simp [deleteStale], by simp⟩
  | cons e rest ih =>
    intro acc
    obtain ⟨rows, sel, tr⟩ := acc
    obtain ⟨p, itemId⟩ := e
    by_cases hk : newKeys.contains p
    · obtain ⟨new, h1, hops⟩ := ih (rows, sel, tr)
      exact ⟨new, by rw [deleteStale, if_pos hk]; exact h1, hops⟩
    · obtain ⟨new, h1, hops⟩ := ih
        (rows.eraseP (fun r => r.itemId = itemId),
         if sel = some itemId then none else sel, tr ++ [Op.delete itemId])
      refine ⟨Op.delete itemId :: new, ?_, ?_⟩
      · rw [deleteStale, if_neg hk, h1]
        simp
      · intro op hop
        rcases List.mem_cons.mp hop with rfl | hop'
        · exact ⟨itemId, rfl⟩
        · exact hops op hop'

theorem populate_ops_shape (st : TreeState) (sample : List ProcInfo) :
    ∀ op ∈ (populate_tree st sample).2,
      isLoopOp op = true ∨ (∃ i, op = Op.delete i) ∨ (∃ i, op = Op.selectionSet i) := by
  rw [populate_tree_eq]
  obtain ⟨new1, h1, hops1⟩ := reconLoop_trace (sortDesc sample) (existingOf st.rows) 0
    ⟨st.rows, [], st.nextId, []⟩
  obtain ⟨new2, h2, hops2⟩ := deleteStale_trace
    ((reconLoop (existingOf st.rows) 0 (sortDesc sample)
      ⟨st.rows, [], st.nextId, []⟩).newItems.map Prod.fst)
    (existingOf st.rows)
    ((reconLoop (existingOf st.rows) 0 (sortDesc sample)
        ⟨st.rows, [], st.nextId, []⟩).tree, st.selection,
      (reconLoop (existingOf st.rows) 0 (sortDesc sample)
        ⟨st.rows, [], st.nextId, []⟩).trace)
  have hbase : ∀ op ∈ (deleteStale
      ((reconLoop (existingOf st.rows) 0 (sortDesc sample)
        ⟨st.rows, [], st.nextId, []⟩).newItems.map Prod.fst)
      (existingOf st.rows)
      ((reconLoop (existingOf st.rows) 0 (sortDesc sample)
          ⟨st.rows, [], st.nextId, []⟩).tree, st.selection,
        (reconLoop (existingOf st.rows) 0 (sortDesc sample)
          ⟨st.rows, [], st.nextId, []⟩).trace)).2.2,
      isLoopOp op = true ∨ (∃ i, op = Op.delete i) ∨ (∃ i, op = Op.selectionSet i) := by
    intro op hop
    rw [h2] at hop
    rcases List.mem_append.mp hop with h | h
    · rw [h1] at h
      rcases List.mem_append.mp h with h' | h'
      · simp at h'
      · exact Or.inl (hops1 op h')
    · exact Or.inr (Or.inl (hops2 op h))
  cases hsp : selectedPid st with
  | none =>
    rw [restoreSelection_none]
    exact hbase
  | some p =>
    cases hlook : alistLookup (reconLoop (existingOf st.rows) 0 (sortDesc sample)
        ⟨st.rows, [], st.nextId, []⟩).newItems p with
    | some id =>
      rw [restoreSelection_found hlook]
      intro op hop
      rcases List.mem_append.mp hop with h | h
      · exact hbase op h
      · rcases List.mem_cons.mp h with rfl | h'
        · exact Or.inr (Or.inr ⟨id, rfl⟩)
        · simp at h'
    | none =>
      rw [restoreSelection_missing hlook]
      exact hbase

/-- C5: the code never restores the scroll fraction and never scrolls
the selection into view: no `yview_moveto` and no `see` call occurs in
any reconcile pass (the fraction read at line 151 is dead). -/
theorem C5_no_scroll_call (st : TreeState) (sample : List ProcInfo) :
    (∀ q : Nat, Op.yviewMoveto q ∉ (populate_tree st sample).2) ∧
    (∀ i : Nat, Op.see i ∉ (populate_tree st sample).2) := by
  have h := populate_ops_shape st sample
  constructor
  · intro q hmem
    rcases h _ hmem with h' | ⟨i, h'⟩ | ⟨i, h'⟩ <;> simp [isLoopOp] at h'
  · intro i hmem
    rcases h _ hmem with h' | ⟨j, h'⟩ | ⟨j, h'⟩ <;> simp [isLoopOp] at h'

/-! ## A reconcile pass over an already-up-to-date display -/

theorem alistLookup_append_right {d1 d2 : List (Nat × Nat)} {k : Nat}
    (h : k ∉ d1.map Prod.fst) :
    alistLookup (d1 ++ d2) k = alistLookup d2 k := by
  induction d1 with
  | nil => rfl
  | cons e rest ih =>
    obtain ⟨a, b⟩ := e
    have hak : a ≠ k := by
      intro he
      exact h (by simp [he])
    rw [List.cons_append, alistLookup_cons_ne _ _ hak]
    exact ih (fun hm => h (by simp [List.mem_map] at hm ⊢; tauto))

theorem reconLoop_noop :
    ∀ (todo done : List ProcInfo) (idsd idst : List Nat),
      done.length = idsd.length → todo.length = idst.length →
      ((done ++ todo).map ProcInfo.pid).Nodup →
      (idsd ++ idst).Nodup →
      ∀ (ni : List (Nat × Nat)) (n1 : Nat) (tr : List Op),
      reconLoop (((done ++ todo).map ProcInfo.pid).zip (idsd ++ idst))
          done.length todo
          ⟨List.zipWith rowOf (done ++ todo) (idsd ++ idst), ni, n1, tr⟩
        = ⟨List.zipWith rowOf (done ++ todo) (idsd ++ idst),
           ni ++ (todo.map ProcInfo.pid).zip idst, n1,
           tr ++ noopTrace done.length idst⟩ := by
  intro todo
  induction todo with
  | nil =>
    intro done idsd idst h1 h2 hnd hind ni n1 tr
    cases idst with
    | nil => simp [reconLoop, noopTrace]
    | cons _ _ => simp at h2
  | cons p todo' ih =>
    intro done idsd idst h1 h2 hnd hind ni n1 tr
    cases idst with
    | nil => simp at h2
    | cons i ist =>
      have h2' : todo'.length = ist.length := by simpa using h2
      have hlenpid : (done.map ProcInfo.pid).length = idsd.length := by
        simpa using h1
      have hpiddone : p.pid ∉ done.map ProcInfo.pid := by
        have hndc := hnd
        rw [List.map_append, List.nodup_append] at hndc
        intro hmem
        exact hndc.2.2 hmem (by simp)
      have hEsplit : (((done ++ p :: todo').map ProcInfo.pid).zip (idsd ++ i :: ist))
          = ((done.map ProcInfo.pid).zip idsd)
            ++ (p.pid, i) :: ((todo'.map ProcInfo.pid).zip ist) := by
        rw [List.map_append, List.zip_append hlenpid]
        simp
      have hlook : alistLookup
          (((done ++ p :: todo').map ProcInfo.pid).zip (idsd ++ i :: ist)) p.pid
          = some i := by
        rw [hEsplit, alistLookup_append_right (by
          intro hm
          rw [List.map_fst_zip (done.map ProcInfo.pid) idsd (by omega)] at hm
          exact hpiddone hm)]
        exact alistLookup_cons_eq _ _ _
      have hfull : List.zipWith rowOf (done ++ p :: todo') (idsd ++ i :: ist)
          = List.zipWith rowOf done idsd
            ++ rowOf p i :: List.zipWith rowOf todo' ist := by
        rw [List.zipWith_append _ _ _ _ _ h1]
        simp
      have hAids : (List.zipWith rowOf done idsd).map Row.itemId = idsd :=
        map_itemId_zipWith done idsd h1
      have hBids : (List.zipWith rowOf todo' ist).map Row.itemId = ist :=
        map_itemId_zipWith todo' ist h2'
      have hindc := hind
      rw [List.nodup_append] at hindc
      have hiA : ∀ a ∈ List.zipWith rowOf done idsd, a.itemId ≠ i := by
        intro a ha he
        have hmem : a.itemId ∈ idsd := by
          rw [← hAids]
          exact List.mem_map_of_mem _ ha
        exact hindc.2.2 (he ▸ hmem) (by simp)
      have hiB : ∀ a ∈ List.zipWith rowOf todo' ist, a.itemId ≠ i := by
        intro a ha he
        have hmem : a.itemId ∈ ist := by
          rw [← hBids]
          exact List.mem_map_of_mem _ ha
        have hni := hindc.2.1
        rw [List.nodup_cons] at hni
        exact hni.1 (he ▸ hmem)
      have hupd : updValues p i
          (List.zipWith rowOf (done ++ p :: todo') (idsd ++ i :: ist))
          = List.zipWith rowOf (done ++ p :: todo') (idsd ++ i :: ist) := by
        rw [hfull]
        exact updValues_split p i _ _ (rowOf p i) hiA hiB rfl
      have hAlen : (List.zipWith rowOf done idsd).length = done.length :=
        zipWith_length_of_eq done idsd h1
      have hidx : idxOfId
          (List.zipWith rowOf (done ++ p :: todo') (idsd ++ i :: ist)) i
          = done.length := by
        rw [hfull]
        unfold idxOfId
        rw [findIdx_split _ _ (rowOf p i) _
          (fun a ha => by simp [hiA a ha]) (by simp [rowOf])]
        exact hAlen
      have hmove : moveTo
          (List.zipWith rowOf (done ++ p :: todo') (idsd ++ i :: ist)) i done.length
          = List.zipWith rowOf (done ++ p :: todo') (idsd ++ i :: ist) := by
        rw [hfull, ← hAlen]
        exact moveTo_noop (List.zipWith rowOf done idsd)
          (List.zipWith rowOf todo' ist) (rowOf p i) hiA
      have e1 : (done ++ [p]) ++ todo' = done ++ p :: todo' := by simp
      have e2 : (idsd ++ [i]) ++ ist = idsd ++ i :: ist := by simp
      have e3 : (done ++ [p]).length = done.length + 1 := by simp
      have hih := ih (done ++ [p]) (idsd ++ [i]) ist
        (by simp [h1]) h2'
        (by rw [e1]; exact hnd)
        (by rw [e2]; exact hind)
        (ni ++ [(p.pid, i)]) n1
        (tr ++ [Op.update i, Op.move i done.length done.length])
      rw [e1, e2, e3] at hih
      rw [reconLoop, loopStep_some hlook]
      simp only []
      rw [hupd, hidx, hmove, hih]
      rw [noopTrace]
      simp

theorem noopTrace_facts : ∀ (ids : List Nat) (k : Nat),
    insertsCount (noopTrace k ids) = 0 ∧
    deletesCount (noopTrace k ids) = 0 ∧
    (∀ op ∈ noopTrace k ids, ∀ id a b, op = Op.move id a b → a = b) ∧
    (∀ op ∈ noopTrace k ids, isScrollOp op = false) := by
  intro ids
  induction ids with
  | nil =>
    intro k
    refine ⟨rfl, rfl, ?_, ?_⟩ <;> intro op hop <;> simp [noopTrace] at hop
  | cons i is ih =>
    intro k
    obtain ⟨ih1, ih2, ih3, ih4⟩ := ih (k + 1)
    refine ⟨?_, ?_, ?_, ?_⟩
    · simp only [noopTrace, insertsCount, List.countP_cons] at ih1 ⊢
      simp [ih1]
    · simp only [noopTrace, deletesCount, List.countP_cons] at ih2 ⊢
      simp [ih2]
    · intro op hop
      rcases List.mem_cons.mp hop with rfl | hop'
      · intro id a b heq
        simp at heq
      · rcases List.mem_cons.mp hop' with rfl | hop''
        · intro id a b heq
          injection heq with h1 h2 h3
          omega
        · exact ih3 op hop''
    · intro op hop
      rcases List.mem_cons.mp hop with rfl | hop'
      · rfl
      · rcases List.mem_cons.mp hop' with rfl | hop''
        · rfl
        · exact ih4 op hop''

/-- C3 as stated ("zero moves on the second reconcile") is false: with
one displayed process, reconciling the same one-record sample a second
time issues one `tree.move` call (line 199 moves every row
unconditionally), although zero inserts and zero deletes. -/
theorem C3_counterexample :
    movesCount (populate_tree (populate_tree ⟨[], none, 0⟩
      [⟨100, "Safari", 500, false⟩]).1 [⟨100, "Safari", 500, false⟩]).2 = 1 ∧
    insertsCount (populate_tree (populate_tree ⟨[], none, 0⟩
      [⟨100, "Safari", 500, false⟩]).1 [⟨100, "Safari", 500, false⟩]).2 = 0 ∧
    deletesCount (populate_tree (populate_tree ⟨[], none, 0⟩
      [⟨100, "Safari", 500, false⟩]).1 [⟨100, "Safari", 500, false⟩]).2 = 0 ∧
    ¬ (movesCount (populate_tree (populate_tree ⟨[], none, 0⟩
      [⟨100, "Safari", 500, false⟩]).1 [⟨100, "Safari", 500, false⟩]).2 = 0) := by
  decide

/-- C3 amended: reconciling the same sample again leaves the display
state (rows, selection, fresh-handle counter) exactly unchanged, with
zero inserts, zero deletes, and although a `tree.move` call is issued
per row, every one of them moves the row to the index it already
occupies; no scroll call is issued. -/
theorem C3_second_reconcile_noop (st : TreeState) (sample : List ProcInfo)
    (hwf : WF st) (hnd : (sample.map ProcInfo.pid).Nodup) :
    (populate_tree (populate_tree st sample).1 sample).1
        = (populate_tree st sample).1 ∧
    insertsCount (populate_tree (populate_tree st sample).1 sample).2 = 0 ∧
    deletesCount (populate_tree (populate_tree st sample).1 sample).2 = 0 ∧
    (∀ op ∈ (populate_tree (populate_tree st sample).1 sample).2,
      ∀ id a b, op = Op.move id a b → a = b) ∧
    (∀ op ∈ (populate_tree (populate_tree st sample).1 sample).2,
      isScrollOp op = false) := by
  have hwf' := hwf
  obtain ⟨hp, hi, hb, hselok⟩ := hwf'
  have hnds : ((sortDesc sample).map ProcInfo.pid).Nodup := sortDesc_pids_nodup hnd
  have hidnd : (idAssign (existingOf st.rows) st.nextId (sortDesc sample)).Nodup :=
    idAssign_nodup hnds (existingOf_lookup_lt hb) (existingOf_lookup_inj hi)
  have hlen : (idAssign (existingOf st.rows) st.nextId (sortDesc sample)).length
      = (sortDesc sample).length := idAssign_length _ _ _
  obtain ⟨hrows1, hnx1, hsel1, _⟩ := populate_spec st sample hwf hnd
  have hex2 : existingOf (populate_tree st sample).1.rows
      = ((sortDesc sample).map ProcInfo.pid).zip
          (idAssign (existingOf st.rows) st.nextId (sortDesc sample)) := by
    rw [hrows1]
    exact existingOf_zipWith _ _ hlen.symm
  have hrun2 : reconLoop (existingOf (populate_tree st sample).1.rows) 0
      (sortDesc sample)
      ⟨(populate_tree st sample).1.rows, [], (populate_tree st sample).1.nextId, []⟩
      = ⟨(populate_tree st sample).1.rows,
         ((sortDesc sample).map ProcInfo.pid).zip
           (idAssign (existingOf st.rows) st.nextId (sortDesc sample)),
         (populate_tree st sample).1.nextId,
         noopTrace 0 (idAssign (existingOf st.rows) st.nextId (sortDesc sample))⟩ := by
    have h := reconLoop_noop (sortDesc sample) [] []
      (idAssign (existingOf st.rows) st.nextId (sortDesc sample))
      rfl hlen.symm (by simpa using hnds) (by simpa using hidnd)
      [] (populate_tree st sample).1.nextId []
    simp only [List.nil_append, List.length_nil] at h
    rw [hex2, hrows1]
    simpa using h
  have hNI2 : (reconLoop (existingOf (populate_tree st sample).1.rows) 0
      (sortDesc sample)
      ⟨(populate_tree st sample).1.rows, [], (populate_tree st sample).1.nextId, []⟩).newItems
      = ((sortDesc sample).map ProcInfo.pid).zip
          (idAssign (existingOf st.rows) st.nextId (sortDesc sample)) := by rw [hrun2]
  have hTR2 : (reconLoop (existingOf (populate_tree st sample).1.rows) 0
      (sortDesc sample)
      ⟨(populate_tree st sample).1.rows, [], (populate_tree st sample).1.nextId, []⟩).tree
      = (populate_tree st sample).1.rows := by rw [hrun2]
  have hNX2 : (reconLoop (existingOf (populate_tree st sample).1.rows) 0
      (sortDesc sample)
      ⟨(populate_tree st sample).1.rows, [], (populate_tree st sample).1.nextId, []⟩).nextId
      = (populate_tree st sample).1.nextId := by rw [hrun2]
  have hTRC2 : (reconLoop (existingOf (populate_tree st sample).1.rows) 0
      (sortDesc sample)
      ⟨(populate_tree st sample).1.rows, [], (populate_tree st sample).1.nextId, []⟩).trace
      = noopTrace 0 (idAssign (existingOf st.rows) st.nextId (sortDesc sample)) := by
    rw [hrun2]
  have hkeys2 : (((sortDesc sample).map ProcInfo.pid).zip
      (idAssign (existingOf st.rows) st.nextId (sortDesc sample))).map Prod.fst
      = (sortDesc sample).map ProcInfo.pid := by
    apply List.map_fst_zip
    simp [hlen]
  have hallpids : ∀ r ∈ (populate_tree st sample).1.rows,
      r.pid ∈ (sortDesc sample).map ProcInfo.pid := by
    intro r hr
    rw [hrows1] at hr
    have := List.mem_map_of_mem Row.pid hr
    rw [map_pid_zipWith _ _ hlen.symm] at this
    exact this
  have hnostale : (populate_tree st sample).1.rows.filter (fun r =>
      !((((sortDesc sample).map ProcInfo.pid)).contains r.pid)) = [] := by
    rw [List.filter_eq_nil_iff]
    intro r hr
    simp [List.elem_eq_mem, hallpids r hr]
  have hdel2 := deleteStale_spec ((sortDesc sample).map ProcInfo.pid)
    (populate_tree st sample).1.rows (populate_tree st sample).1.rows
    (populate_tree st sample).1.selection
    (noopTrace 0 (idAssign (existingOf st.rows) st.nextId (sortDesc sample)))
    (by
      intro r hr hcont
      exfalso
      have := hallpids r hr
      simp [List.elem_eq_mem, this] at hcont)
  rw [hnostale] at hdel2
  simp only [List.append_nil, List.any_nil, List.map_nil, if_false, Bool.false_eq_true] at hdel2
  rw [populate_tree_eq, hNI2, hTR2, hNX2, hTRC2, hkeys2, hdel2]
  cases hsp2 : selectedPid (populate_tree st sample).1 with
  | none =>
    rw [restoreSelection_none]
    obtain ⟨f1, f2, f3, f4⟩ := noopTrace_facts
      (idAssign (existingOf st.rows) st.nextId (sortDesc sample)) 0
    exact ⟨rfl, f1, f2, f3, f4⟩
  | some p =>
    obtain ⟨rsel, hselEq, hrselmem, hrselpid⟩ := selectedPid_some_elim hsp2
    have hrows1pids : ((populate_tree st sample).1.rows.map Row.pid).Nodup := by
      rw [hrows1, map_pid_zipWith _ _ hlen.symm]
      exact hnds
    have hlookup : alistLookup (((sortDesc sample).map ProcInfo.pid).zip
        (idAssign (existingOf st.rows) st.nextId (sortDesc sample))) p
        = some rsel.itemId := by
      rw [← hex2]
      have := existing_lookup_of_mem hrows1pids hrselmem
      rw [hrselpid] at this
      exact this
    rw [restoreSelection_found hlookup]
    obtain ⟨f1, f2, f3, f4⟩ := noopTrace_facts
      (idAssign (existingOf st.rows) st.nextId (sortDesc sample)) 0
    refine ⟨?_, ?_, ?_, ?_, ?_⟩
    · show (⟨(populate_tree st sample).1.rows, some rsel.itemId,
        (populate_tree st sample).1.nextId⟩ : TreeState) = (populate_tree st sample).1
      rw [← hselEq]
    · simp only [insertsCount, List.countP_append]
      simp only [insertsCount] at f1
      simp [f1, List.countP_cons]
    · simp only [deletesCount, List.countP_append]
      simp only [deletesCount] at f2
      simp [f2, List.countP_cons]
    · intro op hop
      rcases List.mem_append.mp hop with h | h
      · exact f3 op h
      · rcases List.mem_cons.mp h with rfl | h'
        · intro id a b heq
          simp at heq
        · simp at h'
    · intro op hop
      rcases List.mem_append.mp hop with h | h
      · exact f4 op h
      · rcases List.mem_cons.mp h with rfl | h'
        · rfl
        · simp at h'

theorem C3_witness :
    ((populate_tree (populate_tree ⟨[], none, 0⟩
        [⟨100, "Safari", 500, false⟩]).1 [⟨100, "Safari", 500, false⟩]).1
        = (populate_tree ⟨[], none, 0⟩ [⟨100, "Safari", 500, false⟩]).1 ∧
    insertsCount (populate_tree (populate_tree ⟨[], none, 0⟩
        [⟨100, "Safari", 500, false⟩]).1 [⟨100, "Safari", 500, false⟩]).2 = 0 ∧
    deletesCount (populate_tree (populate_tree ⟨[], none, 0⟩
        [⟨100, "Safari", 500, false⟩]).1 [⟨100, "Safari", 500, false⟩]).2 = 0 ∧
    (∀ op ∈ (populate_tree (populate_tree ⟨[], none, 0⟩
        [⟨100, "Safari", 500, false⟩]).1 [⟨100, "Safari", 500, false⟩]).2,
      ∀ id a b, op = Op.move id a b → a = b) ∧
    (∀ op ∈ (populate_tree (populate_tree ⟨[], none, 0⟩
        [⟨100, "Safari", 500, false⟩]).1 [⟨100, "Safari", 500, false⟩]).2,
      isScrollOp op = false)) :=
  C3_second_reconcile_noop ⟨[], none, 0⟩ [⟨100, "Safari", 500, false⟩]
    (by decide) (by decide)
